import Mathlib

set_option maxHeartbeats 1000000
set_option maxRecDepth 4000

/-!
Verification of the BusTub buffer-pool core: the buffer pool manager
(`buffer_pool_manager_instance.cpp`), the LRU-K replacer
(`lru_k_replacer.cpp`) and the extendible hash table
(`extendible_hash_table.cpp`), shallowly embedded as executable Lean
functions.  Machine integers (int32 page ids, ticks) are modelled as
unbounded Int/Nat: no operation in the claims gets anywhere near
overflow.  BUSTUB_ASSERT failures and C++ undefined behaviour are
modelled by returning `none`.
-/

/-! ## Association-list maps

The page table is an `ExtendibleHashTable<page_id_t, frame_id_t>` used
purely as a finite map (its directory mechanics are verified separately
below); the disk is a page-id-indexed store of payloads.  Both are
modelled as association lists whose insert updates in place when the key
is present and appends otherwise — exactly the observable behaviour of
`ExtendibleHashTable::Insert`/`Find`/`Remove` and of
`DiskManager::WritePage`/`ReadPage`. -/

def alFind (l : List (Int × Nat)) (k : Int) : Option Nat :=
  (l.find? (fun e => e.1 == k)).map (fun e => e.2)

def alInsert (l : List (Int × Nat)) (k : Int) (v : Nat) : List (Int × Nat) :=
  if (l.find? (fun e => e.1 == k)).isSome then
    l.map (fun e => if e.1 == k then (k, v) else e)
  else l ++ [(k, v)]

def alRemove (l : List (Int × Nat)) (k : Int) : List (Int × Nat) :=
  l.eraseP (fun e => e.1 == k)

/-! ## LRU-K replacer (`lru_k_replacer.cpp`)

`frameinfo_map_` and `frameinfo_list_` hold the same `FrameInfo` records
(the map is an index into the list), so the model keeps a single list in
recency order: head = least recently accessed, tail = most recently
accessed, mirroring `frameinfo_list_`.  History lists hold ticks oldest
first, mirroring `k_accesstime_list_`. -/

def INT32MAX : Int := 2147483647

structure FrameInfo where
  fid : Nat
  evictable : Bool
  hist : List Int
deriving DecidableEq

structure LRUKReplacer where
  k : Nat
  replacerSize : Nat
  currSize : Nat
  ticks : Int
  infos : List FrameInfo
deriving DecidableEq

namespace LRUKReplacer

def findInfo (r : LRUKReplacer) (fid : Nat) : Option FrameInfo :=
  r.infos.find? (fun fi => fi.fid == fid)

/-- `LRUKReplacer::KDistance` for a frame present in the map: `INT32_MAX`
when the history holds fewer than `k` accesses, otherwise newest minus
oldest timestamp of the stored window (`*rbegin() - *begin()`).  Note
this is the source's computation, not the spec's backward k-distance. -/
def kdistOf (k : Nat) (fi : FrameInfo) : Int :=
  if fi.hist.length < k then INT32MAX
  else fi.hist.getLast?.getD 0 - fi.hist.head?.getD 0

/-- `LRUKReplacer::KDistance` including the not-found case (returns -1). -/
def kDistance (r : LRUKReplacer) (fid : Nat) : Int :=
  match r.findInfo fid with
  | none => -1
  | some fi => kdistOf r.k fi

def firstAccess (fi : FrameInfo) : Int := fi.hist.head?.getD 0

/-- The scan in `LRUKReplacer::Evict`: walk `frameinfo_list_` from least
recent to most recent, skip non-evictable entries, keep the entry with
the larger k-distance, breaking ties by earlier first recorded access. -/
def evictLoop (k : Nat) : List FrameInfo → Option FrameInfo → Option FrameInfo
  | [], best => best
  | fi :: rest, best =>
    if fi.evictable then
      match best with
      | none => evictLoop k rest (some fi)
      | some b =>
        if kdistOf k fi > kdistOf k b ∨
            (kdistOf k fi = kdistOf k b ∧ firstAccess fi < firstAccess b) then
          evictLoop k rest (some fi)
        else evictLoop k rest (some b)
    else evictLoop k rest best

/-- `LRUKReplacer::Evict`.  Outer `none` models the undefined behaviour
of erasing the end iterator (`curr_size_ ≠ 0` with no evictable entry,
impossible when `curr_size_` is accurate); inner `none` is the `false`
return when `curr_size_ == 0`. -/
def evict (r : LRUKReplacer) : Option (Option (Nat × LRUKReplacer)) :=
  if r.currSize = 0 then some none
  else
    match evictLoop r.k r.infos none with
    | none => none
    | some fi =>
      some (some (fi.fid,
        { r with infos := r.infos.eraseP (fun x => x.fid == fi.fid),
                 currSize := r.currSize - 1 }))

/-- `LRUKReplacer::RecordAccess`.  `none` models the BUSTUB_ASSERT on
`frame_id <= replacer_size_`.  A known frame drops the oldest history
entry once the window is full, appends the new tick and moves to the
tail of the recency list; an unknown frame gets a fresh record (the
source's default `FrameInfo` constructor leaves `evictable_` with the
value the explicit constructor would give it, `false`). -/
def recordAccess (r : LRUKReplacer) (fid : Nat) : Option LRUKReplacer :=
  if fid > r.replacerSize then none
  else
    match r.findInfo fid with
    | some fi =>
      let hist1 := if fi.hist.length = r.k then fi.hist.tail else fi.hist
      some { r with
        ticks := r.ticks + 1,
        infos := (r.infos.eraseP (fun x => x.fid == fid)) ++
          [{ fi with hist := hist1 ++ [r.ticks] }] }
    | none =>
      some { r with
        ticks := r.ticks + 1,
        infos := r.infos ++ [{ fid := fid, evictable := false, hist := [r.ticks] }] }

/-- `LRUKReplacer::SetEvictable`.  `none` models the asserts (invalid
frame id, unknown frame); `curr_size_` moves only on actual transitions. -/
def setEvictable (r : LRUKReplacer) (fid : Nat) (e : Bool) : Option LRUKReplacer :=
  if fid > r.replacerSize then none
  else
    match r.findInfo fid with
    | none => none
    | some fi =>
      if fi.evictable && !e then
        some { r with
          infos := r.infos.map (fun x => if x.fid == fid then { x with evictable := e } else x),
          currSize := r.currSize - 1 }
      else if !fi.evictable && e then
        some { r with
          infos := r.infos.map (fun x => if x.fid == fid then { x with evictable := e } else x),
          currSize := r.currSize + 1 }
      else some r

/-- `LRUKReplacer::Remove`.  Silently succeeds on an unknown frame;
`none` models the assert that a known frame must be evictable. -/
def remove (r : LRUKReplacer) (fid : Nat) : Option LRUKReplacer :=
  if fid > r.replacerSize then none
  else
    match r.findInfo fid with
    | none => some r
    | some fi =>
      if !fi.evictable then none
      else
        some { r with infos := r.infos.eraseP (fun x => x.fid == fid),
                      currSize := r.currSize - 1 }

end LRUKReplacer

/-- Backward k-distance as the specification defines it: current
timestamp minus the timestamp of the k-th most recent access, `+∞`
(represented by `INT32MAX`, an upper bound no tick reaches here) when
fewer than `k` accesses are recorded.  With the window capped at `k`
entries, the k-th most recent access of a full window is its oldest
entry.  Modelled from the spec for comparison with the source's
`KDistance`. -/
def specBackwardKDistance (now : Int) (k : Nat) (fi : FrameInfo) : Int :=
  if fi.hist.length < k then INT32MAX
  else now - fi.hist.head?.getD 0

/-! ## Buffer pool manager (`buffer_pool_manager_instance.cpp`)

Payloads are opaque: one `Nat` stands for the page's byte buffer, `0`
for a zeroed buffer (`ResetMemory`).  `page_id_t` is `Int` with
`INVALID_PAGE_ID = -1`.  Each operation returns `none` when a modelled
BUSTUB_ASSERT fires, and otherwise the post-state together with the
value the C++ function returns. -/

def INVALID_PAGE_ID : Int := -1

structure Page where
  pageId : Int
  pinCount : Int
  dirty : Bool
  data : Nat
deriving DecidableEq

/-- A frame as `new Page[pool_size_]` constructs it: no resident page,
unpinned, clean, zeroed buffer. -/
def Page.empty : Page :=
  { pageId := INVALID_PAGE_ID, pinCount := 0, dirty := false, data := 0 }

structure BPM where
  poolSize : Nat
  pages : List Page
  pageTable : List (Int × Nat)
  replacer : LRUKReplacer
  freeList : List Nat
  nextPageId : Int
  disk : List (Int × Nat)
deriving DecidableEq

namespace BPM

def getPage (s : BPM) (f : Nat) : Page := s.pages.getD f Page.empty

def diskRead (d : List (Int × Nat)) (p : Int) : Nat := (alFind d p).getD 0

/-- Step 2 of frame acquisition in `NewPgImp`/`FetchPgImp`: if the chosen
frame's resident page is dirty, write it back under the frame's current
`page_id_` and clear the dirty flag. -/
def flushIfDirty (s : BPM) (f : Nat) : BPM :=
  let pg := s.getPage f
  if pg.dirty then
    { s with disk := alInsert s.disk pg.pageId pg.data,
             pages := s.pages.set f { pg with dirty := false } }
  else s

/-- Common tail of `NewPgImp` once a frame has been obtained: write back
if dirty, allocate the id, swap the page-table mapping (removing the
frame's old id), reset the frame pinned at 1, then record the access and
mark non-evictable. -/
def newPgBody (s : BPM) (f : Nat) : Option (BPM × Option Int) :=
  let s1 := flushIfDirty s f
  let pid := s1.nextPageId
  let s2 := { s1 with nextPageId := pid + 1 }
  let s3 := { s2 with pageTable := alInsert (alRemove s2.pageTable (s2.getPage f).pageId) pid f }
  let s4 := { s3 with pages := s3.pages.set f { s3.getPage f with pageId := pid, data := 0, pinCount := 1 } }
  match s4.replacer.recordAccess f with
  | none => none
  | some r1 =>
    match r1.setEvictable f false with
    | none => none
    | some r2 => some ({ s4 with replacer := r2 }, some pid)

/-- `BufferPoolManagerInstance::NewPgImp`: take the head of the free
list, else evict; `(s, none)` is the `nullptr` return. -/
def newPg (s : BPM) : Option (BPM × Option Int) :=
  match s.freeList with
  | f :: rest => newPgBody { s with freeList := rest } f
  | [] =>
    match s.replacer.evict with
    | none => none
    | some none => some (s, none)
    | some (some (f, r1)) => newPgBody { s with replacer := r1 } f

/-- `BufferPoolManagerInstance::FetchPgImp`.  On a page-table hit the pin
count is incremented and the frame returned — the replacer is not told
about the access and the frame is not re-marked non-evictable.  On a
miss the free list is not consulted; a frame is evicted, written back if
dirty, reset to the requested page (ResetMemory followed by
`ReadPage`, so the buffer ends up holding the disk contents), and the
new mapping is inserted — the evicted page's old mapping is not
removed. -/
def fetchPg (s : BPM) (pid : Int) : Option (BPM × Option Nat) :=
  match alFind s.pageTable pid with
  | some f =>
    some ({ s with pages := s.pages.set f { s.getPage f with pinCount := (s.getPage f).pinCount + 1 } },
      some f)
  | none =>
    match s.replacer.evict with
    | none => none
    | some none => some (s, none)
    | some (some (f, r1)) =>
      let s1 := flushIfDirty { s with replacer := r1 } f
      let s2 := { s1 with pages := (s1.pages.set f
        { s1.getPage f with pageId := pid, pinCount := 1, data := diskRead s1.disk pid }) }
      match s2.replacer.recordAccess f with
      | none => none
      | some r2 =>
        match r2.setEvictable f false with
        | none => none
        | some r3 => some ({ s2 with replacer := r3, pageTable := alInsert s2.pageTable pid f }, some f)

/-- `BufferPoolManagerInstance::UnpinPgImp`. -/
def unpinPg (s : BPM) (pid : Int) (isDirty : Bool) : Option (BPM × Bool) :=
  match alFind s.pageTable pid with
  | none => some (s, false)
  | some f =>
    let pg := s.getPage f
    if pg.pinCount ≤ 0 then some (s, false)
    else
      let pg1 := { pg with dirty := if isDirty then true else pg.dirty,
                           pinCount := pg.pinCount - 1 }
      let s1 := { s with pages := s.pages.set f pg1 }
      if pg1.pinCount = 0 then
        match s1.replacer.setEvictable f true with
        | none => none
        | some r1 => some ({ s1 with replacer := r1 }, true)
      else some (s1, true)

/-- `BufferPoolManagerInstance::FlushPgImp`: unconditional write-back of
a resident page under the looked-up id, clearing the dirty flag; `false`
when the id is not in the page table. -/
def flushPg (s : BPM) (pid : Int) : BPM × Bool :=
  match alFind s.pageTable pid with
  | none => (s, false)
  | some f =>
    let pg := s.getPage f
    ({ s with disk := alInsert s.disk pid pg.data,
              pages := s.pages.set f { pg with dirty := false } }, true)

/-- `BufferPoolManagerInstance::FlushAllPgsImp`: walk every frame of the
pool in index order and write the dirty ones to disk under their current
`page_id_`; nothing else — in particular no dirty flag — changes. -/
def flushAll (s : BPM) : BPM :=
  { s with disk := ((List.range s.poolSize).foldl
      (fun d i =>
        let pg := s.getPage i
        if pg.dirty then alInsert d pg.pageId pg.data else d)
      s.disk) }

/-- `BufferPoolManagerInstance::DeletePgImp`: trivial success when not
resident, failure when pinned; otherwise drop the mapping, remove the
frame from the replacer (modelled `Remove` returns `none` if its
evictability assert fires), zero the buffer, invalidate the page id —
the pin count and dirty flag are left untouched — and append the frame
to the free list.  `DeallocatePage` is a no-op. -/
def deletePg (s : BPM) (pid : Int) : Option (BPM × Bool) :=
  match alFind s.pageTable pid with
  | none => some (s, true)
  | some f =>
    if (s.getPage f).pinCount > 0 then some (s, false)
    else
      let s1 := { s with pageTable := alRemove s.pageTable pid }
      match s1.replacer.remove f with
      | none => none
      | some r1 =>
        let s2 := { s1 with replacer := r1 }
        let s3 := { s2 with pages := (s2.pages.set f
          { s2.getPage f with data := 0, pageId := INVALID_PAGE_ID }) }
        some ({ s3 with freeList := s3.freeList ++ [f] }, true)

/-- A caller mutating the payload of the frame holding page `pid`
through a handle obtained from fetch/new (§5: frames are logically
shared and writable while pinned). -/
def writeData (s : BPM) (pid : Int) (b : Nat) : BPM :=
  match alFind s.pageTable pid with
  | none => s
  | some f => { s with pages := s.pages.set f { s.getPage f with data := b } }

/-- The pool as the constructor builds it: all frames empty and on the
free list, empty page table, fresh replacer, ids from 0. -/
def init (n k : Nat) : BPM :=
  { poolSize := n,
    pages := List.replicate n Page.empty,
    pageTable := [],
    replacer := { k := k, replacerSize := n, currSize := 0, ticks := 0, infos := [] },
    freeList := List.range n,
    nextPageId := 0,
    disk := [] }

end BPM

/-! ## The pool as a state machine -/

/-- One public buffer-pool operation (plus a caller's write through a
pinned handle). -/
inductive Op where
  | newOp : Op
  | fetch : Int → Op
  | unpin : Int → Bool → Op
  | flush : Int → Op
  | flushAllOp : Op
  | delete : Int → Op
  | write : Int → Nat → Op
deriving DecidableEq

/-- The state reached by one operation, `none` when a modelled assert
fires during it. -/
def applyOp (s : BPM) : Op → Option BPM
  | Op.newOp => (s.newPg).map (fun x => x.1)
  | Op.fetch p => (s.fetchPg p).map (fun x => x.1)
  | Op.unpin p d => (s.unpinPg p d).map (fun x => x.1)
  | Op.flush p => some (s.flushPg p).1
  | Op.flushAllOp => some s.flushAll
  | Op.delete p => (s.deletePg p).map (fun x => x.1)
  | Op.write p b => some (s.writeData p b)

def runOps (s : BPM) : List Op → Option BPM
  | [] => some s
  | op :: ops =>
    match applyOp s op with
    | none => none
    | some s1 => runOps s1 ops

/-- A pool state is reachable when some sequence of operations produces
it from a freshly constructed pool. -/
def BPM.Reachable (n k : Nat) (s : BPM) : Prop :=
  ∃ ops : List Op, runOps (BPM.init n k) ops = some s

/-! ## List and association-list helper lemmas -/

theorem getD_set_eq {α : Type} (l : List α) (n : Nat) (a d : α) (h : n < l.length) :
    (l.set n a).getD n d = a := by
  simp [List.getD_eq_getElem?_getD, List.getElem?_set, h]

theorem getD_set_ne {α : Type} (l : List α) (m n : Nat) (a d : α) (h : m ≠ n) :
    (l.set n a).getD m d = l.getD m d := by
  simp [List.getD_eq_getElem?_getD, List.getElem?_set, Ne.symm h]

theorem getD_set_oob {α : Type} (l : List α) (n : Nat) (a d : α) (h : ¬ n < l.length) :
    (l.set n a).getD n d = l.getD n d := by
  simp [List.set_eq_of_length_le (Nat.le_of_not_lt h)]

theorem alInsert_find_isSome (l : List (Int × Nat)) (k : Int) (v : Nat) :
    ((alInsert l k v).find? (fun e => e.1 == k)).isSome := by
  rw [List.find?_isSome]
  unfold alInsert
  by_cases h : (l.find? (fun e => e.1 == k)).isSome
  · rw [if_pos h]
    have h2 := List.find?_isSome.mp h
    obtain ⟨x, hx, hpx⟩ := h2
    refine ⟨(k, v), List.mem_map.mpr ⟨x, hx, ?_⟩, by simp⟩
    simp [hpx]
  · rw [if_neg h]
    exact ⟨(k, v), by simp, by simp⟩

theorem alInsert_idem (l : List (Int × Nat)) (k : Int) (v : Nat) :
    alInsert (alInsert l k v) k v = alInsert l k v := by
  have hsome := alInsert_find_isSome l k v
  conv_lhs => rw [alInsert]
  rw [if_pos hsome]
  by_cases h : (l.find? (fun e => e.1 == k)).isSome
  · rw [alInsert, if_pos h, List.map_map]
    exact List.map_congr_left (fun e _ => by by_cases he : e.1 = k <;> simp [he])
  · rw [alInsert, if_neg h, List.map_append]
    have hnone : l.find? (fun e => e.1 == k) = none := Option.not_isSome_iff_eq_none.mp h
    rw [List.find?_eq_none] at hnone
    have h1 : l.map (fun e => if e.1 == k then (k, v) else e) = l := by
      conv_rhs => rw [← List.map_id l]
      exact List.map_congr_left (fun e he => by rw [if_neg (hnone e he), id])
    rw [h1]
    simp

/-! ## Theorems for the claims -/

/-- C1: the pin-discipline invariant `pin_count = 0 ⇔ evictable` fails on
the code: `FetchPgImp` on a hit only increments the pin count and
neither records the access nor marks the frame non-evictable, so a frame
fetched while evictable stays evictable while pinned.  Concretely, on a
1-frame pool: `new_page` (page 0), `unpin(0, false)` (pin 0, evictable),
then `fetch_page(0)` hits and leaves the frame with `pin_count = 1` and
its replacer entry still evictable with an unchanged history. -/
theorem c1_fetch_hit_leaves_frame_evictable :
    (runOps (BPM.init 1 2) [Op.newOp, Op.unpin 0 false, Op.fetch 0]).map
      (fun s => ((s.getPage 0).pinCount,
        (s.replacer.findInfo 0).map (fun fi => (fi.evictable, fi.hist)),
        s.replacer.currSize))
      = some (1, some (true, [0]), 1) := by decide

/-- C2: the fetch miss path does not remove the evicted occupant's old
mapping (only `NewPgImp` does), so conservation fails.  On a 1-frame
pool: `new_page` (page 0), `unpin(0, false)`, `fetch_page(1)` evicts
frame 0 but leaves the stale mapping `0 → 0` beside the new `1 → 0`:
two page-table entries, one resident frame (free list empty, N = 1). -/
theorem c2_fetch_miss_keeps_stale_mapping :
    (runOps (BPM.init 1 2) [Op.newOp, Op.unpin 0 false, Op.fetch 1]).map
      (fun s => (s.pageTable, s.freeList, s.poolSize))
      = some ([(0, 0), (1, 0)], [], 1) := by decide

/-- C3: the round trip fails when the eviction is forced by a fetch
miss.  On a 1-frame pool: `new_page` (page 0), write payload 1,
`unpin(0, true)`, `flush_page(0)` (disk now holds 1 for page 0), then
`fetch_page(1)` evicts frame 0 but leaves the stale mapping `0 → 0`.
The later `fetch_page(0)` hits that stale mapping and returns frame 0,
whose buffer holds page 1's contents (0), not the written payload 1 —
even though the disk still holds the correct payload. -/
theorem c3_round_trip_fails_after_fetch_eviction :
    ((runOps (BPM.init 1 2) [Op.newOp, Op.write 0 1, Op.unpin 0 true, Op.flush 0, Op.fetch 1]).bind
      (fun s => (s.fetchPg 0).map (fun x =>
        (x.2, (x.1.getPage 0).data, (x.1.getPage 0).pageId, BPM.diskRead x.1.disk 0))))
      = some (some 0, 0, 1, 1) := by decide

/-- Replayed access history for C4 (`k = 2`, three frames): frame 1 at
ticks 0 and 1, frame 2 at tick 2, frame 3 at ticks 3–8, frame 2 again at
tick 9; then all three frames are marked evictable.  Histories: frame 1
`[0, 1]`, frame 2 `[2, 9]`, frame 3 `[7, 8]`; current tick 10. -/
def c4replacer : Option LRUKReplacer :=
  ([1, 1, 2, 3, 3, 3, 3, 3, 3, 2].foldlM LRUKReplacer.recordAccess
    { k := 2, replacerSize := 3, currSize := 0, ticks := 0, infos := [] }).bind
  (fun r => [1, 2, 3].foldlM (fun r f => r.setEvictable f true) r)

/-- C4: `Evict` does not return the frame with the largest backward
k-distance.  In the `c4replacer` state the spec's backward k-distances
(current tick 10 minus k-th most recent access) are: frame 1 ↦ 10,
frame 2 ↦ 8, frame 3 ↦ 3, so the claim requires evicting frame 1; the
code compares newest-minus-oldest within each window (frame 1 ↦ 1,
frame 2 ↦ 7, frame 3 ↦ 1) and evicts frame 2. -/
theorem c4_evict_contradicts_backward_kdistance :
    (c4replacer.bind (fun r => r.evict.map (fun e => e.map (fun x => x.1)))) = some (some 2) ∧
    (c4replacer.map (fun r =>
      ((r.findInfo 1).map (specBackwardKDistance r.ticks r.k),
       (r.findInfo 2).map (specBackwardKDistance r.ticks r.k),
       (r.findInfo 3).map (specBackwardKDistance r.ticks r.k))))
      = some (some 10, some 8, some 3) := by decide

/-- C5: `DeletePgImp` does not clear the dirty flag when it resets a
frame.  On a 1-frame pool: `new_page` (page 0), `unpin(0, true)` (frame
dirty), then `delete_page(0)` returns true, clears the buffer, sets
`page_id = INVALID (-1)`, empties the page table and replacer and
appends the frame to the free list — but the frame is still dirty
(`pin_count` is 0 only because the guard required it already). -/
theorem c5_delete_leaves_dirty_flag :
    ((runOps (BPM.init 1 2) [Op.newOp, Op.unpin 0 true]).bind
      (fun s => (s.deletePg 0).map (fun x =>
        ((x.2, x.1.getPage 0), x.1.freeList, x.1.pageTable, x.1.replacer.infos))))
      = some ((true, { pageId := -1, pinCount := 0, dirty := true, data := 0 }), [0], [], []) := by
  decide

theorem getD_set_split {α : Type} (l : List α) (n : Nat) (a d : α) :
    (l.set n a).getD n d = if n < l.length then a else l.getD n d := by
  by_cases h : n < l.length
  · rw [if_pos h]; exact getD_set_eq l n a d h
  · rw [if_neg h]; exact getD_set_oob l n a d h

/-- C7: `FlushPgImp` of a resident page returns true, writes the frame's
payload to disk under the looked-up id without consulting the dirty
flag, clears the dirty flag, and leaves the replacer (hence
evictability), page table, free list and every frame's pin count
unchanged; it returns false with the state untouched when the id is not
resident, and flushing twice in a row yields the same disk as flushing
once with the frame left not-dirty. -/
theorem c7_flush_unconditional_idempotent (s : BPM) (p : Int) :
    (alFind s.pageTable p = none → s.flushPg p = (s, false)) ∧
    (∀ f, alFind s.pageTable p = some f →
      (s.flushPg p).2 = true ∧
      (s.flushPg p).1.disk = alInsert s.disk p (s.getPage f).data ∧
      ((s.flushPg p).1.getPage f).dirty = false) ∧
    ((s.flushPg p).1.replacer = s.replacer ∧
      (s.flushPg p).1.pageTable = s.pageTable ∧
      (s.flushPg p).1.freeList = s.freeList ∧
      ∀ g, ((s.flushPg p).1.getPage g).pinCount = (s.getPage g).pinCount) ∧
    ((s.flushPg p).1.flushPg p).1.disk = (s.flushPg p).1.disk := by
  rcases hfind : alFind s.pageTable p with _ | f
  case none =>
    refine ⟨fun _ => ?_, fun f hf => ?_, ⟨?_, ?_, ?_, fun g => ?_⟩, ?_⟩
    · simp [BPM.flushPg, hfind]
    · exact Option.noConfusion hf
    · simp [BPM.flushPg, hfind]
    · simp [BPM.flushPg, hfind]
    · simp [BPM.flushPg, hfind]
    · simp [BPM.flushPg, hfind]
    · simp [BPM.flushPg, hfind]
  case some =>
    refine ⟨fun h => ?_, fun f2 hf2 => ?_, ⟨?_, ?_, ?_, fun g => ?_⟩, ?_⟩
    · exact Option.noConfusion h
    · injection hf2 with hf2
      subst hf2
      refine ⟨by simp [BPM.flushPg, hfind], by simp [BPM.flushPg, hfind], ?_⟩
      simp only [BPM.flushPg, hfind, BPM.getPage]
      rw [getD_set_split]
      by_cases hf : f < s.pages.length
      · simp [hf]
      · simp [hf, List.getElem?_eq_none (Nat.le_of_not_lt hf), Page.empty]
    · simp [BPM.flushPg, hfind]
    · simp [BPM.flushPg, hfind]
    · simp [BPM.flushPg, hfind]
    · by_cases hg : g = f
      · subst hg
        simp only [BPM.flushPg, hfind, BPM.getPage]
        rw [getD_set_split]
        by_cases hf : g < s.pages.length <;> simp [hf]
      · simp only [BPM.flushPg, hfind, BPM.getPage]
        rw [getD_set_ne _ _ _ _ _ hg]
    · have hdata : (((s.flushPg p).1).getPage f).data = (s.getPage f).data := by
        simp only [BPM.flushPg, hfind, BPM.getPage]
        rw [getD_set_split]
        by_cases hf : f < s.pages.length <;> simp [hf]
      have htable : ((s.flushPg p).1).pageTable = s.pageTable := by
        simp [BPM.flushPg, hfind]
      have hdisk : ((s.flushPg p).1).disk = alInsert s.disk p (s.getPage f).data := by
        simp [BPM.flushPg, hfind]
      conv_lhs => rw [BPM.flushPg, htable, hfind]
      simp only [hdata, hdisk]
      exact alInsert_idem s.disk p (s.getPage f).data

/-- The writes `FlushAllPgsImp` performs: the current `page_id_` and
payload of every dirty frame — resident or not — in frame index order. -/
def BPM.dirtyFrameWrites (s : BPM) : List (Int × Nat) :=
  (List.range s.poolSize).filterMap (fun i =>
    let pg := s.getPage i
    if pg.dirty then some (pg.pageId, pg.data) else none)

theorem foldl_write_filterMap (L : List Nat) (s : BPM) (d : List (Int × Nat)) :
    L.foldl (fun d i =>
        let pg := s.getPage i
        if pg.dirty then alInsert d pg.pageId pg.data else d) d
      = (L.filterMap (fun i =>
          let pg := s.getPage i
          if pg.dirty then some (pg.pageId, pg.data) else none)).foldl
          (fun d e => alInsert d e.1 e.2) d := by
  induction L generalizing d with
  | nil => rfl
  | cons a t ih => by_cases h : (s.getPage a).dirty <;> simp [h, ih]

/-- C10 counterexample: a pool whose only frame is on the free list (the
page table is empty, so no frame is resident) but still carries a dirty
flag, a stale `page_id_ = 7` and payload 5.  `FlushAllPgsImp` has no
residency check: it writes `(7, 5)` to the disk even though the claim —
"writes every resident dirty frame and changes nothing else" — requires
the disk to stay empty here. -/
def c10state : BPM :=
  { poolSize := 1,
    pages := [{ pageId := 7, pinCount := 0, dirty := true, data := 5 }],
    pageTable := [],
    replacer := { k := 2, replacerSize := 1, currSize := 0, ticks := 0, infos := [] },
    freeList := [0],
    nextPageId := 8,
    disk := [] }

/-- C10 is false as stated: in `c10state` no frame is resident, yet
`FlushAllPgsImp` changes the disk. -/
theorem c10_counterexample :
    c10state.pageTable = [] ∧ c10state.freeList = [0] ∧ c10state.disk = [] ∧
    (BPM.flushAll c10state).disk = [(7, 5)] := by decide

/-- C10 amended: `FlushAllPgsImp` writes to disk the payload of every
dirty frame — resident or not — under the frame's current `page_id_`, in
frame index order, and changes nothing else: the frames (hence every
dirty flag, pin count and page id), page table, replacer, free list and
allocator are untouched, so a flushed frame stays dirty and will be
written back again on eviction or an individual flush. -/
theorem c10_flushall_writes_every_dirty_frame (s : BPM) :
    (s.flushAll).disk = s.dirtyFrameWrites.foldl (fun d e => alInsert d e.1 e.2) s.disk ∧
    (s.flushAll).pages = s.pages ∧
    (s.flushAll).pageTable = s.pageTable ∧
    (s.flushAll).replacer = s.replacer ∧
    (s.flushAll).freeList = s.freeList ∧
    (s.flushAll).nextPageId = s.nextPageId ∧
    (s.flushAll).poolSize = s.poolSize := by
  refine ⟨?_, rfl, rfl, rfl, rfl, rfl, rfl⟩
  simp only [BPM.flushAll, BPM.dirtyFrameWrites]
  exact foldl_write_filterMap (List.range s.poolSize) s s.disk

/-! ## Replacer structural lemmas, toward the delete/Remove safety claim -/

theorem eraseP_subset {α : Type} (p : α → Bool) (l : List α) :
    ∀ x ∈ l.eraseP p, x ∈ l :=
  fun _ hx => (List.eraseP_sublist l).subset hx

/-- On a list with no duplicate frame ids, erasing the entry of `f`
leaves only entries of other frames, each drawn from the original. -/
theorem eraseP_fid_spec {l : List FrameInfo}
    (hnd : (l.map (fun fi => fi.fid)).Nodup) (f : Nat) :
    ∀ x ∈ l.eraseP (fun x => x.fid == f), x ∈ l ∧ x.fid ≠ f := by
  induction l with
  | nil => intro x hx; cases hx
  | cons a t ih =>
    intro x hx
    rw [List.map_cons, List.nodup_cons] at hnd
    by_cases pa : a.fid = f
    · rw [List.eraseP_cons_of_pos (by simp [pa])] at hx
      refine ⟨List.mem_cons_of_mem a hx, ?_⟩
      intro hxf
      exact hnd.1 (by rw [pa, ← hxf]; exact List.mem_map_of_mem _ hx)
    · rw [List.eraseP_cons_of_neg (by simp [pa])] at hx
      rcases List.mem_cons.mp hx with hx | hx
      · exact ⟨by rw [hx]; exact List.mem_cons_self a t, by rw [hx]; exact pa⟩
      · obtain ⟨hm, hf⟩ := ih hnd.2 x hx
        exact ⟨List.mem_cons_of_mem a hm, hf⟩

theorem find?_mem_of_eq_some {α : Type} {p : α → Bool} {l : List α} {x : α}
    (h : l.find? p = some x) : x ∈ l ∧ p x = true :=
  ⟨List.mem_of_find?_eq_some h, List.find?_some h⟩

namespace LRUKReplacer

/-- Every entry after `RecordAccess fid` either keeps the frame id and
evictability of an existing entry or is the freshly created entry of
`fid`, which is non-evictable. -/
theorem recordAccess_infos {r r' : LRUKReplacer} {fid : Nat}
    (h : r.recordAccess fid = some r') :
    ∀ fi' ∈ r'.infos,
      (∃ fi ∈ r.infos, fi'.fid = fi.fid ∧ fi'.evictable = fi.evictable) ∨
        (fi'.fid = fid ∧ fi'.evictable = false) := by
  unfold recordAccess at h
  by_cases hb : fid > r.replacerSize
  · rw [if_pos hb] at h; exact Option.noConfusion h
  · rw [if_neg hb] at h
    rcases hf : r.findInfo fid with _ | fi <;> rw [hf] at h <;>
      injection h with h <;> subst h <;> intro fi' hm <;> simp only at hm
    · rcases List.mem_append.mp hm with hm | hm
      · left
        exact ⟨fi', hm, rfl, rfl⟩
      · rcases List.mem_singleton.mp hm with rfl
        right
        exact ⟨rfl, rfl⟩
    · rcases List.mem_append.mp hm with hm | hm
      · left
        exact ⟨fi', eraseP_subset _ _ _ hm, rfl, rfl⟩
      · rcases List.mem_singleton.mp hm with rfl
        left
        exact ⟨fi, (find?_mem_of_eq_some hf).1, rfl, rfl⟩

/-- Every entry after `SetEvictable fid e` either keeps the frame id and
evictability of an existing entry or is the entry of `fid` with
evictability `e`. -/
theorem setEvictable_infos {r r' : LRUKReplacer} {fid : Nat} {e : Bool}
    (h : r.setEvictable fid e = some r') :
    ∀ fi' ∈ r'.infos,
      (∃ fi ∈ r.infos, fi'.fid = fi.fid ∧ fi'.evictable = fi.evictable) ∨
        (fi'.fid = fid ∧ fi'.evictable = e) := by
  unfold setEvictable at h
  by_cases hb : fid > r.replacerSize
  · rw [if_pos hb] at h; exact Option.noConfusion h
  · rw [if_neg hb] at h
    rcases hf : r.findInfo fid with _ | fi <;> rw [hf] at h
    · exact Option.noConfusion h
    · have hmap : ∀ fi' ∈ r.infos.map
          (fun x => if x.fid == fid then { x with evictable := e } else x),
          (∃ fi2 ∈ r.infos, fi'.fid = fi2.fid ∧ fi'.evictable = fi2.evictable) ∨
            (fi'.fid = fid ∧ fi'.evictable = e) := by
        intro fi' hm
        rcases List.mem_map.mp hm with ⟨x, hx, rfl⟩
        by_cases hxf : x.fid = fid
        · right
          rw [if_pos (by simp [hxf])]
          exact ⟨hxf, rfl⟩
        · left
          rw [if_neg (by simp [hxf])]
          exact ⟨x, hx, rfl, rfl⟩
      dsimp only at h
      by_cases h1 : fi.evictable && !e
      · rw [if_pos h1] at h
        injection h with h; subst h
        exact hmap
      · rw [if_neg h1] at h
        by_cases h2 : !fi.evictable && e
        · rw [if_pos h2] at h
          injection h with h; subst h
          exact hmap
        · rw [if_neg h2] at h
          injection h with h; subst h
          intro fi' hm
          exact Or.inl ⟨fi', hm, rfl, rfl⟩

/-- `Remove` only deletes entries. -/
theorem remove_infos {r r' : LRUKReplacer} {fid : Nat}
    (h : r.remove fid = some r') : ∀ fi' ∈ r'.infos, fi' ∈ r.infos := by
  unfold remove at h
  by_cases hb : fid > r.replacerSize
  · rw [if_pos hb] at h; exact Option.noConfusion h
  · rw [if_neg hb] at h
    rcases hf : r.findInfo fid with _ | fi <;> rw [hf] at h
    · injection h with h; subst h
      exact fun fi' hm => hm
    · dsimp only at h
      by_cases he : !fi.evictable
      · rw [if_pos he] at h; exact Option.noConfusion h
      · rw [if_neg he] at h
        injection h with h; subst h
        exact fun fi' hm => eraseP_subset _ _ _ hm

/-- `Evict` only deletes entries. -/
theorem evict_infos {r r' : LRUKReplacer} {f : Nat}
    (h : r.evict = some (some (f, r'))) : ∀ fi' ∈ r'.infos, fi' ∈ r.infos := by
  unfold evict at h
  by_cases hc : r.currSize = 0
  · rw [if_pos hc] at h
    injection h with h; exact Option.noConfusion h
  · rw [if_neg hc] at h
    rcases hl : evictLoop r.k r.infos none with _ | fi <;> rw [hl] at h
    · exact Option.noConfusion h
    · injection h with h
      injection h with h
      injection h with h1 h2
      subst h2
      exact fun fi' hm => eraseP_subset _ _ _ hm

end LRUKReplacer

namespace LRUKReplacer

/-- The replacer never holds two records for one frame (mirroring that
`frameinfo_map_` is keyed by frame id). -/
def NodupFids (r : LRUKReplacer) : Prop :=
  (r.infos.map (fun fi => fi.fid)).Nodup

theorem recordAccess_replacerSize {r r' : LRUKReplacer} {fid : Nat}
    (h : r.recordAccess fid = some r') : r'.replacerSize = r.replacerSize := by
  unfold recordAccess at h
  by_cases hb : fid > r.replacerSize
  · rw [if_pos hb] at h; exact Option.noConfusion h
  · rw [if_neg hb] at h
    rcases hf : r.findInfo fid with _ | fi <;> rw [hf] at h <;>
      injection h with h <;> subst h <;> rfl

theorem setEvictable_replacerSize {r r' : LRUKReplacer} {fid : Nat} {e : Bool}
    (h : r.setEvictable fid e = some r') : r'.replacerSize = r.replacerSize := by
  unfold setEvictable at h
  by_cases hb : fid > r.replacerSize
  · rw [if_pos hb] at h; exact Option.noConfusion h
  · rw [if_neg hb] at h
    rcases hf : r.findInfo fid with _ | fi <;> rw [hf] at h
    · exact Option.noConfusion h
    · dsimp only at h
      by_cases h1 : fi.evictable && !e
      · rw [if_pos h1] at h; injection h with h; subst h; rfl
      · rw [if_neg h1] at h
        by_cases h2 : !fi.evictable && e
        · rw [if_pos h2] at h; injection h with h; subst h; rfl
        · rw [if_neg h2] at h; injection h with h; subst h; rfl

theorem remove_replacerSize {r r' : LRUKReplacer} {fid : Nat}
    (h : r.remove fid = some r') : r'.replacerSize = r.replacerSize := by
  unfold remove at h
  by_cases hb : fid > r.replacerSize
  · rw [if_pos hb] at h; exact Option.noConfusion h
  · rw [if_neg hb] at h
    rcases hf : r.findInfo fid with _ | fi <;> rw [hf] at h
    · injection h with h; subst h; rfl
    · dsimp only at h
      by_cases he : !fi.evictable
      · rw [if_pos he] at h; exact Option.noConfusion h
      · rw [if_neg he] at h; injection h with h; subst h; rfl

theorem evict_replacerSize {r r' : LRUKReplacer} {f : Nat}
    (h : r.evict = some (some (f, r'))) : r'.replacerSize = r.replacerSize := by
  unfold evict at h
  by_cases hc : r.currSize = 0
  · rw [if_pos hc] at h
    injection h with h; exact Option.noConfusion h
  · rw [if_neg hc] at h
    rcases hl : evictLoop r.k r.infos none with _ | fi <;> rw [hl] at h
    · exact Option.noConfusion h
    · injection h with h
      injection h with h
      injection h with h1 h2
      subst h2; rfl

theorem recordAccess_nodup {r r' : LRUKReplacer} {fid : Nat}
    (h : r.recordAccess fid = some r') (hnd : r.NodupFids) : r'.NodupFids := by
  unfold recordAccess at h
  by_cases hb : fid > r.replacerSize
  · rw [if_pos hb] at h; exact Option.noConfusion h
  · rw [if_neg hb] at h
    rcases hf : r.findInfo fid with _ | fi <;> rw [hf] at h <;>
      injection h with h <;> subst h <;> unfold NodupFids at hnd ⊢ <;>
      simp only [List.map_append, List.map_cons, List.map_nil]
    · rw [List.nodup_append]
      refine ⟨hnd, List.nodup_singleton _, ?_⟩
      intro a ha hb2
      rw [List.mem_singleton.mp hb2] at ha
      have hnone : r.findInfo fid = none := hf
      unfold findInfo at hnone
      rw [List.find?_eq_none] at hnone
      rcases List.mem_map.mp ha with ⟨x, hx, hxa⟩
      exact absurd (by simp [hxa]) (hnone x hx)
    · rw [List.nodup_append]
      have herase := eraseP_fid_spec hnd fid
      refine ⟨?_, List.nodup_singleton _, ?_⟩
      · exact hnd.sublist (List.Sublist.map _ (List.eraseP_sublist _))
      · intro a ha hb2
        rw [List.mem_singleton.mp hb2] at ha
        rcases List.mem_map.mp ha with ⟨x, hx, hxx⟩
        have hfid : fi.fid = fid := by
          have := (find?_mem_of_eq_some hf).2
          simpa using this
        rw [hfid] at hxx
        exact (herase x hx).2 hxx

theorem setEvictable_nodup {r r' : LRUKReplacer} {fid : Nat} {e : Bool}
    (h : r.setEvictable fid e = some r') (hnd : r.NodupFids) : r'.NodupFids := by
  unfold setEvictable at h
  by_cases hb : fid > r.replacerSize
  · rw [if_pos hb] at h; exact Option.noConfusion h
  · rw [if_neg hb] at h
    rcases hf : r.findInfo fid with _ | fi <;> rw [hf] at h
    · exact Option.noConfusion h
    · have hmapnd : ((r.infos.map
          (fun x => if x.fid == fid then { x with evictable := e } else x)).map
            (fun fi => fi.fid)).Nodup := by
        rw [List.map_map]
        have : ((fun fi => fi.fid) ∘
            (fun x => if x.fid == fid then { x with evictable := e } else x)) =
            (fun fi : FrameInfo => fi.fid) := by
          funext x
          by_cases hx : x.fid = fid <;> simp [hx]
        rw [this]
        exact hnd
      dsimp only at h
      by_cases h1 : fi.evictable && !e
      · rw [if_pos h1] at h; injection h with h; subst h; exact hmapnd
      · rw [if_neg h1] at h
        by_cases h2 : !fi.evictable && e
        · rw [if_pos h2] at h; injection h with h; subst h; exact hmapnd
        · rw [if_neg h2] at h; injection h with h; subst h; exact hnd

theorem remove_nodup {r r' : LRUKReplacer} {fid : Nat}
    (h : r.remove fid = some r') (hnd : r.NodupFids) : r'.NodupFids := by
  unfold remove at h
  by_cases hb : fid > r.replacerSize
  · rw [if_pos hb] at h; exact Option.noConfusion h
  · rw [if_neg hb] at h
    rcases hf : r.findInfo fid with _ | fi <;> rw [hf] at h
    · injection h with h; subst h; exact hnd
    · dsimp only at h
      by_cases he : !fi.evictable
      · rw [if_pos he] at h; exact Option.noConfusion h
      · rw [if_neg he] at h; injection h with h; subst h
        exact hnd.sublist (List.Sublist.map _ (List.eraseP_sublist _))

theorem evict_nodup {r r' : LRUKReplacer} {f : Nat}
    (h : r.evict = some (some (f, r'))) (hnd : r.NodupFids) : r'.NodupFids := by
  unfold evict at h
  by_cases hc : r.currSize = 0
  · rw [if_pos hc] at h
    injection h with h; exact Option.noConfusion h
  · rw [if_neg hc] at h
    rcases hl : evictLoop r.k r.infos none with _ | fi <;> rw [hl] at h
    · exact Option.noConfusion h
    · injection h with h
      injection h with h
      injection h with h1 h2
      subst h2
      exact hnd.sublist (List.Sublist.map _ (List.eraseP_sublist _))

end LRUKReplacer

/-! ## Pool invariants: well-formedness and the pin/evictability link -/

theorem alInsert_mem (l : List (Int × Nat)) (k : Int) (v : Nat) :
    ∀ e ∈ alInsert l k v, e = (k, v) ∨ e ∈ l := by
  intro e he
  unfold alInsert at he
  by_cases h : (l.find? (fun e => e.1 == k)).isSome
  · rw [if_pos h] at he
    rcases List.mem_map.mp he with ⟨x, hx, rfl⟩
    by_cases hxk : x.1 = k
    · left; rw [if_pos (by simp [hxk])]
    · right; rw [if_neg (by simp [hxk])]; exact hx
  · rw [if_neg h] at he
    rcases List.mem_append.mp he with he | he
    · right; exact he
    · left; exact List.mem_singleton.mp he

theorem alRemove_mem (l : List (Int × Nat)) (k : Int) :
    ∀ e ∈ alRemove l k, e ∈ l :=
  fun e he => eraseP_subset _ _ e he

namespace BPM

def pinOf (s : BPM) (f : Nat) : Int := (s.getPage f).pinCount

theorem pinOf_set (s : BPM) (f : Nat) (pg : Page) (g : Nat) :
    (({ s with pages := s.pages.set f pg } : BPM).pinOf g) =
      if g = f ∧ f < s.pages.length then pg.pinCount else s.pinOf g := by
  unfold pinOf getPage
  by_cases hg : g = f
  · subst hg
    by_cases hf : g < s.pages.length
    · rw [if_pos ⟨rfl, hf⟩]
      exact congrArg Page.pinCount (getD_set_eq _ _ _ _ hf)
    · rw [if_neg (fun hc => hf hc.2)]
      exact congrArg Page.pinCount (getD_set_oob _ _ _ _ hf)
  · rw [if_neg (fun hc => hg hc.1)]
    exact congrArg Page.pinCount (getD_set_ne _ _ _ _ _ hg)

/-- Well-formedness of a pool state: sizes agree, and every frame id
stored in the free list, the replacer or the page table indexes a frame
of the pool; the replacer holds at most one record per frame. -/
def WF (s : BPM) : Prop :=
  s.pages.length = s.poolSize ∧
  (∀ f ∈ s.freeList, f < s.poolSize) ∧
  (∀ fi ∈ s.replacer.infos, fi.fid < s.poolSize) ∧
  (∀ e ∈ s.pageTable, e.2 < s.poolSize) ∧
  s.replacer.replacerSize = s.poolSize ∧
  s.replacer.NodupFids

/-- The invariant behind the safety of `DeletePgImp`: a frame whose
replacer record is non-evictable is pinned. -/
def PinInv (s : BPM) : Prop :=
  ∀ fi ∈ s.replacer.infos, fi.evictable = false → 1 ≤ s.pinOf fi.fid

def Inv (s : BPM) : Prop := s.WF ∧ s.PinInv

theorem init_inv (n k : Nat) : (init n k).Inv := by
  refine ⟨⟨?_, ?_, ?_, ?_, rfl, ?_⟩, ?_⟩
  · exact List.length_replicate n Page.empty
  · intro f hf; exact List.mem_range.mp hf
  · intro fi hfi; cases hfi
  · intro e he; cases he
  · exact List.nodup_nil
  · intro fi hfi; cases hfi

/-- Replacing the replacer by the result of `RecordAccess f` or
`SetEvictable f e` preserves the invariant, provided frame `f` is in
range and is pinned whenever it could end up non-evictable. -/
theorem inv_set_replacer_recordAccess {s : BPM} {r1 : LRUKReplacer} {f : Nat}
    (h : s.replacer.recordAccess f = some r1) (hinv : s.Inv)
    (hf : f < s.poolSize) (hpinf : 1 ≤ s.pinOf f) :
    ({ s with replacer := r1 } : BPM).Inv := by
  obtain ⟨⟨h1, h2, h3, h4, h5, h6⟩, hpin⟩ := hinv
  refine ⟨⟨h1, h2, ?_, h4, ?_, ?_⟩, ?_⟩
  · intro fi' hm
    rcases LRUKReplacer.recordAccess_infos h fi' hm with ⟨fi, hfi, hid, _⟩ | ⟨hid, _⟩
    · rw [hid]; exact h3 fi hfi
    · rw [hid]; exact hf
  · rw [LRUKReplacer.recordAccess_replacerSize h]; exact h5
  · exact LRUKReplacer.recordAccess_nodup h h6
  · intro fi' hm hev
    rcases LRUKReplacer.recordAccess_infos h fi' hm with ⟨fi, hfi, hid, hevq⟩ | ⟨hid, _⟩
    · rw [hid]
      exact hpin fi hfi (by rw [← hevq]; exact hev)
    · rw [hid]; exact hpinf

theorem inv_set_replacer_setEvictable {s : BPM} {r1 : LRUKReplacer} {f : Nat} {e : Bool}
    (h : s.replacer.setEvictable f e = some r1) (hinv : s.Inv)
    (hf : f < s.poolSize) (hpinf : e = true ∨ 1 ≤ s.pinOf f) :
    ({ s with replacer := r1 } : BPM).Inv := by
  obtain ⟨⟨h1, h2, h3, h4, h5, h6⟩, hpin⟩ := hinv
  refine ⟨⟨h1, h2, ?_, h4, ?_, ?_⟩, ?_⟩
  · intro fi' hm
    rcases LRUKReplacer.setEvictable_infos h fi' hm with ⟨fi, hfi, hid, _⟩ | ⟨hid, _⟩
    · rw [hid]; exact h3 fi hfi
    · rw [hid]; exact hf
  · rw [LRUKReplacer.setEvictable_replacerSize h]; exact h5
  · exact LRUKReplacer.setEvictable_nodup h h6
  · intro fi' hm hev
    rcases LRUKReplacer.setEvictable_infos h fi' hm with ⟨fi, hfi, hid, hevq⟩ | ⟨hid, hevq⟩
    · rw [hid]
      exact hpin fi hfi (by rw [← hevq]; exact hev)
    · rw [hid]
      rcases hpinf with he | hp
      · rw [he] at hevq; rw [hevq] at hev; exact absurd hev (by simp)
      · exact hp

end BPM

theorem pin_getD_set (l : List Page) (f g : Nat) (pg : Page) :
    ((l.set f pg).getD g Page.empty).pinCount =
      if g = f ∧ f < l.length then pg.pinCount else (l.getD g Page.empty).pinCount := by
  by_cases hg : g = f
  · subst hg
    by_cases hfl : g < l.length
    · rw [if_pos ⟨rfl, hfl⟩, getD_set_eq _ _ _ _ hfl]
    · rw [if_neg (fun hc => hfl hc.2), getD_set_oob _ _ _ _ hfl]
  · rw [if_neg (fun hc => hg hc.1), getD_set_ne _ _ _ _ _ hg]

namespace BPM

theorem flushIfDirty_fields (s : BPM) (f : Nat) :
    (s.flushIfDirty f).pageTable = s.pageTable ∧
    (s.flushIfDirty f).replacer = s.replacer ∧
    (s.flushIfDirty f).freeList = s.freeList ∧
    (s.flushIfDirty f).poolSize = s.poolSize ∧
    (s.flushIfDirty f).nextPageId = s.nextPageId ∧
    (s.flushIfDirty f).pages.length = s.pages.length ∧
    ∀ g, (s.flushIfDirty f).pinOf g = s.pinOf g := by
  simp only [flushIfDirty]
  by_cases h : (s.getPage f).dirty
  · rw [if_pos h]
    refine ⟨rfl, rfl, rfl, rfl, rfl, List.length_set _ _ _, fun g => ?_⟩
    unfold pinOf getPage
    dsimp only
    rw [pin_getD_set]
    by_cases hc : g = f ∧ f < s.pages.length
    · rw [if_pos hc, hc.1]
    · rw [if_neg hc]
  · rw [if_neg h]
    exact ⟨rfl, rfl, rfl, rfl, rfl, rfl, fun g => rfl⟩

theorem flushIfDirty_inv {s : BPM} (f : Nat) (hinv : s.Inv) : (s.flushIfDirty f).Inv := by
  obtain ⟨⟨h1, h2, h3, h4, h5, h6⟩, hpin⟩ := hinv
  obtain ⟨e1, e2, e3, e4, _, e6, e7⟩ := flushIfDirty_fields s f
  refine ⟨⟨?_, ?_, ?_, ?_, ?_, ?_⟩, ?_⟩
  · rw [e6]
    show s.pages.length = (s.flushIfDirty f).poolSize
    rw [e4]; exact h1
  · rw [e3, e4]; exact h2
  · rw [e2, e4]; exact h3
  · rw [e1, e4]; exact h4
  · rw [e2, e4]; exact h5
  · rw [e2]; exact h6
  · intro fi hm hev
    rw [e7]
    rw [e2] at hm
    exact hpin fi hm hev

end BPM

theorem evictLoop_mem (k : Nat) : ∀ (l : List FrameInfo) (b fi : Option FrameInfo),
    LRUKReplacer.evictLoop k l b = fi → fi.isSome →
      (∃ x ∈ l, fi = some x) ∨ b = fi := by
  intro l
  induction l with
  | nil =>
    intro b fi h _
    right; exact h
  | cons a t ih =>
    intro b fi h hs
    unfold LRUKReplacer.evictLoop at h
    by_cases ha : a.evictable
    · rw [if_pos ha] at h
      cases b with
      | none =>
        rcases ih (some a) fi h hs with ⟨x, hx, rfl⟩ | hb
        · exact Or.inl ⟨x, List.mem_cons_of_mem a hx, rfl⟩
        · exact Or.inl ⟨a, List.mem_cons_self a t, hb.symm⟩
      | some bb =>
        dsimp only at h
        by_cases hcmp : LRUKReplacer.kdistOf k a > LRUKReplacer.kdistOf k bb ∨
            (LRUKReplacer.kdistOf k a = LRUKReplacer.kdistOf k bb ∧
              LRUKReplacer.firstAccess a < LRUKReplacer.firstAccess bb)
        · rw [if_pos hcmp] at h
          rcases ih (some a) fi h hs with ⟨x, hx, rfl⟩ | hb
          · exact Or.inl ⟨x, List.mem_cons_of_mem a hx, rfl⟩
          · exact Or.inl ⟨a, List.mem_cons_self a t, hb.symm⟩
        · rw [if_neg hcmp] at h
          rcases ih (some bb) fi h hs with ⟨x, hx, rfl⟩ | hb
          · exact Or.inl ⟨x, List.mem_cons_of_mem a hx, rfl⟩
          · exact Or.inr hb
    · rw [if_neg ha] at h
      rcases ih b fi h hs with ⟨x, hx, rfl⟩ | hb
      · exact Or.inl ⟨x, List.mem_cons_of_mem a hx, rfl⟩
      · exact Or.inr hb

theorem evict_picks_entry {r : LRUKReplacer} {f : Nat} {r1 : LRUKReplacer}
    (h : r.evict = some (some (f, r1))) : ∃ fi ∈ r.infos, fi.fid = f := by
  unfold LRUKReplacer.evict at h
  by_cases hc : r.currSize = 0
  · rw [if_pos hc] at h
    injection h with h; exact Option.noConfusion h
  · rw [if_neg hc] at h
    rcases hl : LRUKReplacer.evictLoop r.k r.infos none with _ | fi <;> rw [hl] at h
    · exact Option.noConfusion h
    · injection h with h
      injection h with h
      injection h with h1 h2
      rcases evictLoop_mem r.k r.infos none (some fi) hl rfl with ⟨x, hx, hxe⟩ | hb
      · injection hxe with hxe
        subst hxe
        exact ⟨fi, hx, h1⟩
      · exact Option.noConfusion hb

namespace BPM

theorem inv_update_nextPageId {s : BPM} (n : Int) (h : s.Inv) :
    ({ s with nextPageId := n } : BPM).Inv := by
  obtain ⟨⟨h1, h2, h3, h4, h5, h6⟩, hp⟩ := h
  exact ⟨⟨h1, h2, h3, h4, h5, h6⟩, hp⟩

theorem inv_update_pageTable {s : BPM} (pt : List (Int × Nat))
    (hpt : ∀ e ∈ pt, e.2 < s.poolSize) (h : s.Inv) :
    ({ s with pageTable := pt } : BPM).Inv := by
  obtain ⟨⟨h1, h2, h3, h4, h5, h6⟩, hp⟩ := h
  exact ⟨⟨h1, h2, h3, hpt, h5, h6⟩, hp⟩

theorem inv_update_freeList {s : BPM} (fl : List Nat)
    (hfl : ∀ f ∈ fl, f < s.poolSize) (h : s.Inv) :
    ({ s with freeList := fl } : BPM).Inv := by
  obtain ⟨⟨h1, h2, h3, h4, h5, h6⟩, hp⟩ := h
  exact ⟨⟨h1, hfl, h3, h4, h5, h6⟩, hp⟩

theorem inv_update_pages_disk {s : BPM} (f : Nat) (pg : Page) (d : List (Int × Nat))
    (hpg : 1 ≤ (s.getPage f).pinCount → 1 ≤ pg.pinCount) (hinv : s.Inv) :
    ({ s with disk := d, pages := s.pages.set f pg } : BPM).Inv := by
  obtain ⟨⟨h1, h2, h3, h4, h5, h6⟩, hp⟩ := hinv
  refine ⟨⟨?_, h2, h3, h4, h5, h6⟩, ?_⟩
  · show (s.pages.set f pg).length = s.poolSize
    rw [List.length_set]; exact h1
  · intro fi hm hev
    show 1 ≤ ((s.pages.set f pg).getD fi.fid Page.empty).pinCount
    rw [pin_getD_set]
    by_cases hc : fi.fid = f ∧ f < s.pages.length
    · rw [if_pos hc]
      refine hpg ?_
      have hx := hp fi hm hev
      unfold pinOf getPage at hx
      rw [hc.1] at hx
      exact hx
    · rw [if_neg hc]
      exact hp fi hm hev

theorem inv_set_replacer_remove {s : BPM} {r1 : LRUKReplacer} {f : Nat}
    (h : s.replacer.remove f = some r1) (hinv : s.Inv) :
    ({ s with replacer := r1 } : BPM).Inv := by
  obtain ⟨⟨h1, h2, h3, h4, h5, h6⟩, hp⟩ := hinv
  refine ⟨⟨h1, h2, ?_, h4, ?_, ?_⟩, ?_⟩
  · intro fi hm; exact h3 fi (LRUKReplacer.remove_infos h fi hm)
  · rw [LRUKReplacer.remove_replacerSize h]; exact h5
  · exact LRUKReplacer.remove_nodup h h6
  · intro fi hm hev; exact hp fi (LRUKReplacer.remove_infos h fi hm) hev

theorem inv_set_replacer_evict {s : BPM} {f : Nat} {r1 : LRUKReplacer}
    (h : s.replacer.evict = some (some (f, r1))) (hinv : s.Inv) :
    ({ s with replacer := r1 } : BPM).Inv ∧ f < s.poolSize := by
  obtain ⟨⟨h1, h2, h3, h4, h5, h6⟩, hp⟩ := hinv
  refine ⟨⟨⟨h1, h2, ?_, h4, ?_, ?_⟩, ?_⟩, ?_⟩
  · intro fi hm; exact h3 fi (LRUKReplacer.evict_infos h fi hm)
  · rw [LRUKReplacer.evict_replacerSize h]; exact h5
  · exact LRUKReplacer.evict_nodup h h6
  · intro fi hm hev; exact hp fi (LRUKReplacer.evict_infos h fi hm) hev
  · obtain ⟨fi, hfi, hfid⟩ := evict_picks_entry h
    rw [← hfid]; exact h3 fi hfi

end BPM

namespace LRUKReplacer

/-- After a successful `SetEvictable fid e` on a duplicate-free
replacer, every record of frame `fid` carries evictability `e`. -/
theorem setEvictable_fid {r r' : LRUKReplacer} {fid : Nat} {e : Bool}
    (h : r.setEvictable fid e = some r') (hnd : r.NodupFids) :
    ∀ fi' ∈ r'.infos, fi'.fid = fid → fi'.evictable = e := by
  unfold setEvictable at h
  by_cases hb : fid > r.replacerSize
  · rw [if_pos hb] at h; exact Option.noConfusion h
  · rw [if_neg hb] at h
    rcases hf : r.findInfo fid with _ | fi <;> rw [hf] at h
    · exact Option.noConfusion h
    · have hmap : ∀ fi' ∈ r.infos.map
          (fun x => if x.fid == fid then { x with evictable := e } else x),
          fi'.fid = fid → fi'.evictable = e := by
        intro fi' hm hid
        rcases List.mem_map.mp hm with ⟨x, hx, rfl⟩
        by_cases hxf : x.fid = fid
        · rw [if_pos (by simp [hxf])]
        · rw [if_neg (by simp [hxf])] at hid ⊢
          exact absurd hid hxf
      dsimp only at h
      by_cases h1 : fi.evictable && !e
      · rw [if_pos h1] at h; injection h with h; subst h; exact hmap
      · rw [if_neg h1] at h
        by_cases h2 : !fi.evictable && e
        · rw [if_pos h2] at h; injection h with h; subst h; exact hmap
        · rw [if_neg h2] at h
          injection h with h; subst h
          intro fi' hm hid
          have hfieq : fi' = fi := by
            have hfm := (find?_mem_of_eq_some hf).1
            have hfidfi : fi.fid = fid := by
              have := (find?_mem_of_eq_some hf).2
              simpa using this
            exact List.inj_on_of_nodup_map hnd hm hfm (by rw [hid, hfidfi])
          have heq : fi.evictable = e := by
            rcases hev : fi.evictable <;> rcases he2 : e <;>
              rw [hev, he2] at h1 h2 <;> simp at h1 h2 ⊢
          rw [hfieq, heq]

end LRUKReplacer

theorem alFind_mem {l : List (Int × Nat)} {k : Int} {v : Nat} (h : alFind l k = some v) :
    ∃ e ∈ l, e.1 = k ∧ e.2 = v := by
  unfold alFind at h
  rcases hf : l.find? (fun e => e.1 == k) with _ | e <;> rw [hf] at h
  · exact Option.noConfusion h
  · injection h with h
    obtain ⟨hm, hp⟩ := find?_mem_of_eq_some hf
    exact ⟨e, hm, by simpa using hp, h⟩

namespace BPM

/-- Invariant of the state built by the tail of frame acquisition (both
`NewPgImp` and the miss path of `FetchPgImp`): frame `f` is reset with
`pin_count = 1`, the page table is replaced by a well-formed table, and
the replacer is updated by `RecordAccess f` then `SetEvictable f false`
(abstracted by `hchain`/`hsize`/`hnd`). -/
theorem inv_assemble {sf : BPM} {r2 : LRUKReplacer} {f : Nat} {pgnew : Page}
    {pt2 : List (Int × Nat)} {n2 : Int} {d2 : List (Int × Nat)}
    (isf : sf.Inv) (hf : f < sf.poolSize)
    (hpin1 : pgnew.pinCount = 1)
    (hpt : ∀ e ∈ pt2, e.2 < sf.poolSize)
    (hchain : ∀ fi' ∈ r2.infos,
      (∃ fi ∈ sf.replacer.infos, fi'.fid = fi.fid ∧ fi'.evictable = fi.evictable) ∨
        fi'.fid = f)
    (hsize : r2.replacerSize = sf.replacer.replacerSize)
    (hnd : r2.NodupFids) :
    ({ poolSize := sf.poolSize, pages := sf.pages.set f pgnew, pageTable := pt2,
       replacer := r2, freeList := sf.freeList, nextPageId := n2, disk := d2 } : BPM).Inv := by
  obtain ⟨⟨w1, w2, w3, w4, w5, w6⟩, wp⟩ := isf
  have hlen : f < sf.pages.length := by rw [w1]; exact hf
  refine ⟨⟨?_, w2, ?_, hpt, ?_, hnd⟩, ?_⟩
  · show (sf.pages.set f pgnew).length = sf.poolSize
    rw [List.length_set]; exact w1
  · intro fi hm
    rcases hchain fi hm with ⟨fi1, h1, hid, _⟩ | hid
    · rw [hid]; exact w3 fi1 h1
    · rw [hid]; exact hf
  · rw [hsize]; exact w5
  · intro fi hm hev
    show 1 ≤ ((sf.pages.set f pgnew).getD fi.fid Page.empty).pinCount
    rw [pin_getD_set]
    by_cases hc : fi.fid = f ∧ f < sf.pages.length
    · rw [if_pos hc, hpin1]
    · have hne : fi.fid ≠ f := fun hh => hc ⟨hh, hlen⟩
      rw [if_neg hc]
      rcases hchain fi hm with ⟨fi1, h1, hid, hevq⟩ | hidf
      · have hq := wp fi1 h1 (by rw [← hevq]; exact hev)
        rw [hid]; exact hq
      · exact absurd hidf hne

theorem newPgBody_inv {s s' : BPM} {f : Nat} {res : Option Int}
    (h : s.newPgBody f = some (s', res)) (hinv : s.Inv) (hf : f < s.poolSize) :
    s'.Inv := by
  have isf : (s.flushIfDirty f).Inv := flushIfDirty_inv f hinv
  have epool : (s.flushIfDirty f).poolSize = s.poolSize := (flushIfDirty_fields s f).2.2.2.1
  simp only [newPgBody] at h
  split at h
  next hra => exact Option.noConfusion h
  next r1 hra =>
    split at h
    next hse => exact Option.noConfusion h
    next r2 hse =>
      injection h with h
      injection h with hs hres
      subst hs
      have hchain : ∀ fi' ∈ r2.infos,
          (∃ fi ∈ (s.flushIfDirty f).replacer.infos,
            fi'.fid = fi.fid ∧ fi'.evictable = fi.evictable) ∨ fi'.fid = f := by
        intro fi' hm
        rcases LRUKReplacer.setEvictable_infos hse fi' hm with ⟨fi0, h0, hid, hev0⟩ | ⟨hid, _⟩
        · rcases LRUKReplacer.recordAccess_infos hra fi0 h0 with ⟨fi1, h1, hid1, hev1⟩ | ⟨hid1, _⟩
          · left; exact ⟨fi1, h1, hid.trans hid1, hev0.trans hev1⟩
          · right; exact hid.trans hid1
        · right; exact hid
      have hsize : r2.replacerSize = (s.flushIfDirty f).replacer.replacerSize := by
        rw [LRUKReplacer.setEvictable_replacerSize hse,
          LRUKReplacer.recordAccess_replacerSize hra]
      have hnd : r2.NodupFids :=
        LRUKReplacer.setEvictable_nodup hse
          (LRUKReplacer.recordAccess_nodup hra isf.1.2.2.2.2.2)
      have hpt : ∀ e ∈ alInsert
          (alRemove (s.flushIfDirty f).pageTable
            ((s.flushIfDirty f).getPage f).pageId)
          (s.flushIfDirty f).nextPageId f, e.2 < (s.flushIfDirty f).poolSize := by
        intro e he
        rcases alInsert_mem _ _ _ e he with rfl | he2
        · rw [epool]; exact hf
        · exact isf.1.2.2.2.1 e (alRemove_mem _ _ e he2)
      exact inv_assemble isf (by rw [epool]; exact hf) rfl hpt hchain hsize hnd

theorem newPg_inv {s s' : BPM} {res : Option Int}
    (h : s.newPg = some (s', res)) (hinv : s.Inv) : s'.Inv := by
  unfold newPg at h
  split at h
  next f rest hfl =>
    have hmem : ∀ g ∈ s.freeList, g < s.poolSize := hinv.1.2.1
    have hf : f < s.poolSize := hmem f (by rw [hfl]; exact List.mem_cons_self f rest)
    have hrest : ∀ g ∈ rest, g < s.poolSize :=
      fun g hg => hmem g (by rw [hfl]; exact List.mem_cons_of_mem f hg)
    exact newPgBody_inv h (inv_update_freeList rest hrest hinv) hf
  next hfl =>
    split at h
    next hev => exact Option.noConfusion h
    next hev =>
      injection h with h
      injection h with hs hres
      subst hs; exact hinv
    next f r1 hev =>
      obtain ⟨i1, hf⟩ := inv_set_replacer_evict hev hinv
      exact newPgBody_inv h i1 hf

theorem fetchPg_inv {s s' : BPM} {p : Int} {res : Option Nat}
    (h : s.fetchPg p = some (s', res)) (hinv : s.Inv) : s'.Inv := by
  simp only [fetchPg] at h
  split at h
  next f hfind =>
    injection h with h
    injection h with hs hres
    subst hs
    refine inv_update_pages_disk f _ s.disk (fun hx => ?_) hinv
    have : (0 : Int) ≤ (s.getPage f).pinCount := le_trans (by norm_num) hx
    show 1 ≤ (s.getPage f).pinCount + 1
    omega
  next hfind =>
    split at h
    next hev => exact Option.noConfusion h
    next hev =>
      injection h with h
      injection h with hs hres
      subst hs; exact hinv
    next f r1 hev =>
      obtain ⟨i1, hf⟩ := inv_set_replacer_evict hev hinv
      have isf : ((({ s with replacer := r1 } : BPM)).flushIfDirty f).Inv :=
        flushIfDirty_inv f i1
      have epool : ((({ s with replacer := r1 } : BPM)).flushIfDirty f).poolSize
          = s.poolSize :=
        (flushIfDirty_fields ({ s with replacer := r1 } : BPM) f).2.2.2.1
      split at h
      next hra => exact Option.noConfusion h
      next r2 hra =>
        split at h
        next hse => exact Option.noConfusion h
        next r3 hse =>
          injection h with h
          injection h with hs hres
          subst hs
          have hchain : ∀ fi' ∈ r3.infos,
              (∃ fi ∈ ((({ s with replacer := r1 } : BPM)).flushIfDirty f).replacer.infos,
                fi'.fid = fi.fid ∧ fi'.evictable = fi.evictable) ∨ fi'.fid = f := by
            intro fi' hm
            rcases LRUKReplacer.setEvictable_infos hse fi' hm with
              ⟨fi0, h0, hid, hev0⟩ | ⟨hid, _⟩
            · rcases LRUKReplacer.recordAccess_infos hra fi0 h0 with
                ⟨fi1, h1, hid1, hev1⟩ | ⟨hid1, _⟩
              · left; exact ⟨fi1, h1, hid.trans hid1, hev0.trans hev1⟩
              · right; exact hid.trans hid1
            · right; exact hid
          have hsize : r3.replacerSize
              = ((({ s with replacer := r1 } : BPM)).flushIfDirty f).replacer.replacerSize := by
            rw [LRUKReplacer.setEvictable_replacerSize hse,
              LRUKReplacer.recordAccess_replacerSize hra]
          have hnd : r3.NodupFids :=
            LRUKReplacer.setEvictable_nodup hse
              (LRUKReplacer.recordAccess_nodup hra isf.1.2.2.2.2.2)
          have hpt : ∀ e ∈ alInsert
              ((({ s with replacer := r1 } : BPM)).flushIfDirty f).pageTable p f,
              e.2 < ((({ s with replacer := r1 } : BPM)).flushIfDirty f).poolSize := by
            intro e he
            rcases alInsert_mem _ _ _ e he with rfl | he2
            · rw [epool]; exact hf
            · exact isf.1.2.2.2.1 e he2
          exact inv_assemble isf (by rw [epool]; exact hf) rfl hpt hchain hsize hnd

theorem unpinPg_inv {s s' : BPM} {p : Int} {d b : Bool}
    (h : s.unpinPg p d = some (s', b)) (hinv : s.Inv) : s'.Inv := by
  simp only [unpinPg] at h
  split at h
  next hfind =>
    injection h with h
    injection h with hs _
    subst hs; exact hinv
  next f hfind =>
    split at h
    next hguard =>
      injection h with h
      injection h with hs _
      subst hs; exact hinv
    next hguard =>
      split at h
      next hz =>
        split at h
        next hse => exact Option.noConfusion h
        next r1 hse =>
          injection h with h
          injection h with hs _
          subst hs
          obtain ⟨⟨w1, w2, w3, w4, w5, w6⟩, wp⟩ := hinv
          have hffl : f < s.poolSize := by
            obtain ⟨e, he, _, hev⟩ := alFind_mem hfind
            rw [← hev]; exact w4 e he
          refine ⟨⟨?_, w2, ?_, w4, ?_, ?_⟩, ?_⟩
          · show (s.pages.set f _).length = s.poolSize
            rw [List.length_set]; exact w1
          · intro fi hm
            rcases LRUKReplacer.setEvictable_infos hse fi hm with ⟨fi1, h1, hid, _⟩ | ⟨hid, _⟩
            · rw [hid]; exact w3 fi1 h1
            · rw [hid]; exact hffl
          · rw [LRUKReplacer.setEvictable_replacerSize hse]; exact w5
          · exact LRUKReplacer.setEvictable_nodup hse w6
          · intro fi hm hev
            by_cases hfid : fi.fid = f
            · have := LRUKReplacer.setEvictable_fid hse w6 fi hm hfid
              rw [this] at hev; exact absurd hev (by simp)
            · rcases LRUKReplacer.setEvictable_infos hse fi hm with
                ⟨fi1, h1, hid, hevq⟩ | ⟨hid, _⟩
              · have hq := wp fi1 h1 (by rw [← hevq]; exact hev)
                show 1 ≤ ((s.pages.set f _).getD fi.fid Page.empty).pinCount
                rw [pin_getD_set, if_neg (fun hc => hfid hc.1), hid]
                exact hq
              · exact absurd hid hfid
      next hz =>
        injection h with h
        injection h with hs _
        subst hs
        refine inv_update_pages_disk f _ s.disk (fun hx => ?_) hinv
        show 1 ≤ (s.getPage f).pinCount - 1
        omega

theorem deletePg_inv {s s' : BPM} {p : Int} {b : Bool}
    (h : s.deletePg p = some (s', b)) (hinv : s.Inv) : s'.Inv := by
  simp only [deletePg] at h
  split at h
  next hfind =>
    injection h with h
    injection h with hs _
    subst hs; exact hinv
  next f hfind =>
    split at h
    next hpinned =>
      injection h with h
      injection h with hs _
      subst hs; exact hinv
    next hpinned =>
      split at h
      next hrem => exact Option.noConfusion h
      next r1 hrem =>
        injection h with h
        injection h with hs _
        subst hs
        obtain ⟨⟨w1, w2, w3, w4, w5, w6⟩, wp⟩ := hinv
        have hffl : f < s.poolSize := by
          obtain ⟨e, he, _, hev⟩ := alFind_mem hfind
          rw [← hev]; exact w4 e he
        refine ⟨⟨?_, ?_, ?_, ?_, ?_, ?_⟩, ?_⟩
        · show (s.pages.set f _).length = s.poolSize
          rw [List.length_set]; exact w1
        · intro g hg
          rcases List.mem_append.mp hg with hg | hg
          · exact w2 g hg
          · rw [List.mem_singleton.mp hg]; exact hffl
        · intro fi hm; exact w3 fi (LRUKReplacer.remove_infos hrem fi hm)
        · intro e he; exact w4 e (alRemove_mem _ _ e he)
        · rw [LRUKReplacer.remove_replacerSize hrem]; exact w5
        · exact LRUKReplacer.remove_nodup hrem w6
        · intro fi hm hev
          have hq := wp fi (LRUKReplacer.remove_infos hrem fi hm) hev
          show 1 ≤ ((s.pages.set f _).getD fi.fid Page.empty).pinCount
          rw [pin_getD_set]
          by_cases hc : fi.fid = f ∧ f < s.pages.length
          · rw [if_pos hc]
            have : 1 ≤ (s.pages.getD f Page.empty).pinCount := by rw [← hc.1]; exact hq
            exact this
          · rw [if_neg hc]; exact hq

theorem flushPg_inv (s : BPM) (p : Int) (hinv : s.Inv) : ((s.flushPg p).1).Inv := by
  simp only [flushPg]
  split
  next hfind => exact hinv
  next f hfind =>
    exact inv_update_pages_disk f _ _ (fun hx => hx) hinv

theorem flushAll_inv (s : BPM) (hinv : s.Inv) : (s.flushAll).Inv := by
  obtain ⟨⟨w1, w2, w3, w4, w5, w6⟩, wp⟩ := hinv
  exact ⟨⟨w1, w2, w3, w4, w5, w6⟩, wp⟩

theorem writeData_inv (s : BPM) (p : Int) (v : Nat) (hinv : s.Inv) :
    (s.writeData p v).Inv := by
  simp only [writeData]
  split
  next hfind => exact hinv
  next f hfind =>
    exact inv_update_pages_disk f _ _ (fun hx => hx) hinv

end BPM

theorem applyOp_inv {s s' : BPM} {op : Op} (h : applyOp s op = some s')
    (hinv : s.Inv) : s'.Inv := by
  cases op with
  | newOp =>
    simp only [applyOp] at h
    rcases hn : s.newPg with _ | x <;> rw [hn] at h
    · exact Option.noConfusion h
    · injection h with h
      rw [← h]
      exact BPM.newPg_inv hn hinv
  | fetch p =>
    simp only [applyOp] at h
    rcases hn : s.fetchPg p with _ | x <;> rw [hn] at h
    · exact Option.noConfusion h
    · injection h with h
      rw [← h]
      exact BPM.fetchPg_inv hn hinv
  | unpin p d =>
    simp only [applyOp] at h
    rcases hn : s.unpinPg p d with _ | x <;> rw [hn] at h
    · exact Option.noConfusion h
    · injection h with h
      rw [← h]
      exact BPM.unpinPg_inv hn hinv
  | flush p =>
    simp only [applyOp] at h
    injection h with h
    rw [← h]
    exact BPM.flushPg_inv s p hinv
  | flushAllOp =>
    simp only [applyOp] at h
    injection h with h
    rw [← h]
    exact BPM.flushAll_inv s hinv
  | delete p =>
    simp only [applyOp] at h
    rcases hn : s.deletePg p with _ | x <;> rw [hn] at h
    · exact Option.noConfusion h
    · injection h with h
      rw [← h]
      exact BPM.deletePg_inv hn hinv
  | write p v =>
    simp only [applyOp] at h
    injection h with h
    rw [← h]
    exact BPM.writeData_inv s p v hinv

theorem runOps_inv : ∀ (ops : List Op) (s s' : BPM),
    runOps s ops = some s' → s.Inv → s'.Inv := by
  intro ops
  induction ops with
  | nil =>
    intro s s' h hi
    injection h with h
    rw [← h]; exact hi
  | cons op t ih =>
    intro s s' h hi
    unfold runOps at h
    rcases ha : applyOp s op with _ | s1 <;> rw [ha] at h
    · exact Option.noConfusion h
    · exact ih s1 s' h (applyOp_inv ha hi)

/-- Every reachable pool state is well-formed and keeps non-evictable
replacer records pinned. -/
theorem reachable_inv {n k : Nat} {s : BPM} (h : BPM.Reachable n k s) : s.Inv := by
  obtain ⟨ops, hops⟩ := h
  exact runOps_inv ops _ s hops (BPM.init_inv n k)

/-- C8 is false as stated: there is no reachable pool state in which
`delete_page` passes its guards (the page resident with `pin_count ≤ 0`)
while the frame's replacer entry exists and is non-evictable.  In every
reachable state a non-evictable replacer entry belongs to a frame with
`pin_count ≥ 1`, so the entry `Remove` meets — if any — is already
evictable and the replacer's assertion cannot fire. -/
theorem c8_counterexample :
    ¬ ∃ (n k : Nat) (s : BPM) (p : Int) (f : Nat) (fi : FrameInfo),
        BPM.Reachable n k s ∧ alFind s.pageTable p = some f ∧
        ¬((s.getPage f).pinCount > 0) ∧
        s.replacer.findInfo f = some fi ∧ fi.evictable = false := by
  rintro ⟨n, k, s, p, f, fi, hreach, hfind, hpin, hfi, hev⟩
  obtain ⟨hwf, hpinv⟩ := reachable_inv hreach
  have hm := List.mem_of_find?_eq_some hfi
  have hfid : fi.fid = f := by simpa using List.find?_some hfi
  have h1 := hpinv fi hm hev
  rw [hfid] at h1
  have h2 : 1 ≤ (s.getPage f).pinCount := h1
  omega

/-- C8 amended: `DeletePgImp` does call the replacer's `Remove` without
first marking the frame evictable, but in every reachable pool state
this is safe: whenever the guards pass (page resident, `pin_count ≤ 0`),
the frame's replacer entry — if one exists — is already evictable, so
`Remove`'s precondition holds and `delete_page` never trips the
replacer's assertions. -/
theorem c8_delete_remove_safe (n k : Nat) (s : BPM) (hreach : BPM.Reachable n k s)
    (p : Int) :
    (∀ f fi, alFind s.pageTable p = some f → (s.getPage f).pinCount ≤ 0 →
      s.replacer.findInfo f = some fi → fi.evictable = true) ∧
    s.deletePg p ≠ none := by
  obtain ⟨⟨w1, w2, w3, w4, w5, w6⟩, hpinv⟩ := reachable_inv hreach
  have key : ∀ f fi, alFind s.pageTable p = some f → (s.getPage f).pinCount ≤ 0 →
      s.replacer.findInfo f = some fi → fi.evictable = true := by
    intro f fi hfind hpin hfi
    have hm := List.mem_of_find?_eq_some hfi
    have hfid : fi.fid = f := by simpa using List.find?_some hfi
    by_contra hev
    have hev2 : fi.evictable = false := by
      revert hev; cases fi.evictable <;> simp
    have h1 := hpinv fi hm hev2
    rw [hfid] at h1
    have h2 : 1 ≤ (s.getPage f).pinCount := h1
    omega
  refine ⟨key, ?_⟩
  simp only [BPM.deletePg]
  split
  next hfind => simp
  next f hfind =>
    split
    next hpinned => simp
    next hpinned =>
      split
      next hrem =>
        exfalso
        have hffl : f < s.poolSize := by
          obtain ⟨e, he, _, hev⟩ := alFind_mem hfind
          rw [← hev]; exact w4 e he
        unfold LRUKReplacer.remove at hrem
        rw [if_neg (by rw [w5]; omega)] at hrem
        rcases hfi : s.replacer.findInfo f with _ | fi <;> rw [hfi] at hrem
        · exact Option.noConfusion hrem
        · dsimp only at hrem
          have hev := key f fi hfind (by omega) hfi
          rw [if_neg (by rw [hev]; simp)] at hrem
          exact Option.noConfusion hrem
      next r1 hrem => simp

/-- A 1-frame pool holding page 0 pinned: the state after `new_page` on
a fresh pool. -/
def c7state : BPM := (runOps (BPM.init 1 2) [Op.newOp]).getD (BPM.init 1 2)

/-- Witness for C7 at a concrete state: page 0 resident in `c7state`
(flush succeeds, writes its payload, clears dirty, twice is idempotent)
and page 5 absent (flush fails, state untouched). -/
theorem c7_witness :
    (c7state.flushPg 0).2 = true ∧
    (c7state.flushPg 0).1.disk = alInsert c7state.disk 0 (c7state.getPage 0).data ∧
    ((c7state.flushPg 0).1.getPage 0).dirty = false ∧
    ((c7state.flushPg 0).1.flushPg 0).1.disk = (c7state.flushPg 0).1.disk ∧
    c7state.flushPg 5 = (c7state, false) := by
  have h0 := c7_flush_unconditional_idempotent c7state 0
  have h5 := c7_flush_unconditional_idempotent c7state 5
  obtain ⟨hq1, hq2, hq3⟩ := h0.2.1 0 (by decide)
  exact ⟨hq1, hq2, hq3, h0.2.2.2, h5.1 (by decide)⟩

/-- The reachable state used as witness for C8: a 1-frame pool after
`new_page` and `unpin(0, false)` — page 0 resident, unpinned,
evictable. -/
def c8state : BPM := (runOps (BPM.init 1 2) [Op.newOp, Op.unpin 0 false]).getD (BPM.init 1 2)

/-- Witness for C8 amended at the concrete reachable state `c8state`
with `p = 0`: the frame delete will remove is evictable and
`delete_page(0)` completes without tripping an assertion. -/
theorem c8_witness :
    (∀ f fi, alFind c8state.pageTable 0 = some f → (c8state.getPage f).pinCount ≤ 0 →
      c8state.replacer.findInfo f = some fi → fi.evictable = true) ∧
    c8state.deletePg 0 ≠ none :=
  c8_delete_remove_safe 1 2 c8state ⟨[Op.newOp, Op.unpin 0 false], by decide⟩ 0

/-! ## Extendible hash table (`extendible_hash_table.cpp`)

Keys and values are `Nat`; `std::hash` is a parameter `hash : Nat → Nat`.
Buckets are allocated in a store (`buckets`) and the directory holds
store indices, so the aliasing of `std::shared_ptr<Bucket>` across
directory slots is the sharing of store indices.  `Insert`'s
split-and-retry recursion can genuinely diverge (every key hashing
alike), so it takes explicit fuel and returns `none` when the fuel runs
out — a `some` result is exactly a terminating C++ call. -/

structure Bucket where
  size : Nat
  depth : Nat
  items : List (Nat × Nat)
deriving DecidableEq

instance : Inhabited Bucket := ⟨{ size := 0, depth := 0, items := [] }⟩

/-- `Bucket::Insert`'s loop: update the first entry holding the key in
place, else append. -/
def insertList : List (Nat × Nat) → Nat → Nat → List (Nat × Nat)
  | [], k, v => [(k, v)]
  | kv :: t, k, v => if kv.1 == k then (k, v) :: t else kv :: insertList t k v

namespace Bucket

/-- Modelled from the spec: `Bucket::IsFull` is declared in the missing
header `extendible_hash_table.h`.  The spec gives buckets bounded
capacity `B` ("if the bucket has room, append"), so a bucket is full
exactly when it holds `B` entries. -/
def isFull (b : Bucket) : Bool := b.items.length == b.size

/-- `Bucket::Find`: linear scan. -/
def findB (b : Bucket) (k : Nat) : Option Nat :=
  (b.items.find? (fun kv => kv.1 == k)).map (fun kv => kv.2)

/-- `Bucket::Remove`: erase the first matching entry, report whether one
existed. -/
def removeB (b : Bucket) (k : Nat) : Bucket × Bool :=
  if (b.items.find? (fun kv => kv.1 == k)).isSome then
    ({ b with items := b.items.eraseP (fun kv => kv.1 == k) }, true)
  else (b, false)

/-- `Bucket::Insert`: update in place or append (always returns true in
the source; the bool is dropped). -/
def insertB (b : Bucket) (k v : Nat) : Bucket :=
  { b with items := insertList b.items k v }

end Bucket

structure EHT where
  globalDepth : Nat
  bucketSize : Nat
  numBuckets : Nat
  buckets : List Bucket
  dir : List Nat
deriving DecidableEq

namespace EHT

/-- The constructor: global depth 0, one empty bucket of depth 0. -/
def initT (B : Nat) : EHT :=
  { globalDepth := 0, bucketSize := B, numBuckets := 1,
    buckets := [{ size := B, depth := 0, items := [] }], dir := [0] }

/-- `IndexOf`: the low `global_depth_` bits of the hash. -/
def indexOf (hash : Nat → Nat) (t : EHT) (k : Nat) : Nat :=
  hash k % 2 ^ t.globalDepth

def bucketIdAt (t : EHT) (i : Nat) : Nat := t.dir.getD i 0

def bucketAt (t : EHT) (i : Nat) : Bucket := t.buckets.getD (t.bucketIdAt i) default

/-- `ExtendibleHashTable::Find`. -/
def findT (hash : Nat → Nat) (t : EHT) (k : Nat) : Option Nat :=
  (t.bucketAt (indexOf hash t k)).findB k

/-- `ExtendibleHashTable::Remove`. -/
def removeT (hash : Nat → Nat) (t : EHT) (k : Nat) : EHT × Bool :=
  let bid := t.bucketIdAt (indexOf hash t k)
  let b := t.buckets.getD bid default
  let br := b.removeB k
  ({ t with buckets := t.buckets.set bid br.1 }, br.2)

/-- `GrowGlobal`: append a copy of the directory to itself (the source's
`reserve` + `copy_n` self-append) and increment the global depth. -/
def growGlobal (t : EHT) : EHT :=
  { t with dir := t.dir ++ t.dir, globalDepth := t.globalDepth + 1 }

/-- `GrowLocal index`: split the bucket shared by all slots whose low-L
bits equal those of `index` (L its local depth).  Two fresh buckets of
depth L+1 are allocated (ids `buckets.length` for `new_bucket`,
`buckets.length + 1` for `old_bucket`); the old items are distributed by
bit L of their hash via `Bucket::Insert`; the loop
`for (i = index & (mask-1); i < dir.size(); i += mask)` — every slot
congruent to `index` mod 2^L — redirects to the bucket matching bit L of
the slot. -/
def growLocal (hash : Nat → Nat) (t : EHT) (index : Nat) : EHT :=
  let bid := t.bucketIdAt index
  let b := t.buckets.getD bid default
  let L := b.depth
  let fresh : Bucket := { size := t.bucketSize, depth := L + 1, items := [] }
  let pair := b.items.foldl
    (fun (acc : Bucket × Bucket) kv =>
      if hash kv.1 &&& 2 ^ L ≠ 0 then (acc.1.insertB kv.1 kv.2, acc.2)
      else (acc.1, acc.2.insertB kv.1 kv.2))
    (fresh, fresh)
  let newId := t.buckets.length
  let oldId := t.buckets.length + 1
  { t with
    buckets := t.buckets ++ [pair.1, pair.2],
    dir := (List.range t.dir.length).map (fun i =>
      if i % 2 ^ L = index % 2 ^ L then (if i &&& 2 ^ L ≠ 0 then newId else oldId)
      else t.dir.getD i 0),
    numBuckets := t.numBuckets + 1 }

/-- `ExtendibleHashTable::Insert` with explicit fuel for the
split-and-retry recursion.  Mirrors the source: on a full bucket, double
the directory when `L = G` and recompute the slot; the source then
returns without inserting if `L ≥ G` still holds (dead code under the
invariant `L ≤ G`); otherwise split and retry. -/
def insertT (hash : Nat → Nat) : Nat → EHT → Nat → Nat → Option EHT
  | 0, _, _, _ => none
  | fuel + 1, t, k, v =>
    let index := indexOf hash t k
    let b := t.bucketAt index
    if ¬ b.isFull then
      some { t with buckets := t.buckets.set (t.bucketIdAt index) (b.insertB k v) }
    else
      let t1 := if b.depth = t.globalDepth then t.growGlobal else t
      let index1 := indexOf hash t1 k
      if (t1.bucketAt index1).depth ≥ t1.globalDepth then some t1
      else insertT hash fuel (t1.growLocal hash index1) k v

end EHT

/-- One table operation (`Find` is read-only and changes nothing). -/
inductive TOp where
  | ins : Nat → Nat → Nat → TOp
  | rem : Nat → TOp
deriving DecidableEq

def applyTOp (hash : Nat → Nat) (t : EHT) : TOp → Option EHT
  | TOp.ins k v fuel => EHT.insertT hash fuel t k v
  | TOp.rem k => some (EHT.removeT hash t k).1

def runTOps (hash : Nat → Nat) (t : EHT) : List TOp → Option EHT
  | [] => some t
  | op :: ops =>
    match applyTOp hash t op with
    | none => none
    | some t1 => runTOps hash t1 ops

/-- A table state reachable by some sequence of terminating
`Insert`/`Remove` calls from a freshly constructed table of bucket
capacity `B`. -/
def EHT.ReachableT (hash : Nat → Nat) (B : Nat) (t : EHT) : Prop :=
  ∃ ops : List TOp, runTOps hash (EHT.initT B) ops = some t

/-- The directory invariants of the extendible hash table, stated per
slot: the directory has `2^G` slots referring into the store; each
bucket's local depth is at most `G`; slots agreeing on the low-L bits of
a slot share its bucket, and aliased slots agree on those bits; every
stored key hashes into its bucket's discriminant; and no bucket stores a
key twice. -/
def EHT.InvT (hash : Nat → Nat) (t : EHT) : Prop :=
  t.dir.length = 2 ^ t.globalDepth ∧
  (∀ i < t.dir.length, t.bucketIdAt i < t.buckets.length) ∧
  (∀ i < t.dir.length, (t.bucketAt i).depth ≤ t.globalDepth) ∧
  (∀ i < t.dir.length, ∀ j < t.dir.length,
    i % 2 ^ (t.bucketAt i).depth = j % 2 ^ (t.bucketAt i).depth →
      t.bucketIdAt i = t.bucketIdAt j) ∧
  (∀ i < t.dir.length, ∀ j < t.dir.length,
    t.bucketIdAt i = t.bucketIdAt j →
      i % 2 ^ (t.bucketAt i).depth = j % 2 ^ (t.bucketAt i).depth) ∧
  (∀ i < t.dir.length, ∀ kv ∈ (t.bucketAt i).items,
    hash kv.1 % 2 ^ (t.bucketAt i).depth = i % 2 ^ (t.bucketAt i).depth) ∧
  (∀ i < t.dir.length, ((t.bucketAt i).items.map (fun kv => kv.1)).Nodup)

/-! ## Arithmetic and list lemmas for the directory proofs -/

theorem and_two_pow_ne (x L : Nat) : (x &&& 2 ^ L ≠ 0) ↔ x.testBit L = true := by
  rw [Nat.and_two_pow]
  rcases h : x.testBit L <;> simp [h]

theorem mod_succ_eq_of_mod_testBit (x y L : Nat) (h1 : x % 2 ^ L = y % 2 ^ L)
    (h2 : x.testBit L = y.testBit L) : x % 2 ^ (L + 1) = y % 2 ^ (L + 1) := by
  rw [Nat.mod_pow_succ, Nat.mod_pow_succ, h1, ← Nat.toNat_testBit, ← Nat.toNat_testBit, h2]

theorem testBit_eq_of_mod_succ (x y L : Nat) (h : x % 2 ^ (L + 1) = y % 2 ^ (L + 1)) :
    x.testBit L = y.testBit L := by
  have hx : (x % 2 ^ (L + 1)).testBit L = x.testBit L := by
    rw [Nat.testBit_mod_two_pow]
    simp [Nat.lt_succ_self]
  have hy : (y % 2 ^ (L + 1)).testBit L = y.testBit L := by
    rw [Nat.testBit_mod_two_pow]
    simp [Nat.lt_succ_self]
  rw [← hx, ← hy, h]

theorem mod_pow_le (x y : Nat) {L G : Nat} (hLG : L ≤ G) (h : x % 2 ^ G = y % 2 ^ G) :
    x % 2 ^ L = y % 2 ^ L := by
  have hdvd : (2 : Nat) ^ L ∣ 2 ^ G := pow_dvd_pow 2 hLG
  calc x % 2 ^ L = (x % 2 ^ G) % 2 ^ L := (Nat.mod_mod_of_dvd x hdvd).symm
    _ = (y % 2 ^ G) % 2 ^ L := by rw [h]
    _ = y % 2 ^ L := Nat.mod_mod_of_dvd y hdvd

theorem range_map_getD {α : Type} (n i : Nat) (f : Nat → α) (d : α) (h : i < n) :
    ((List.range n).map f).getD i d = f i := by
  rw [List.getD_eq_getElem?_getD, List.getElem?_map, List.getElem?_range h]
  rfl

theorem getD_append_left {α : Type} (l1 l2 : List α) (i : Nat) (d : α)
    (h : i < l1.length) : (l1 ++ l2).getD i d = l1.getD i d := by
  rw [List.getD_eq_getElem?_getD, List.getD_eq_getElem?_getD, List.getElem?_append_left h]

theorem getD_append_two_fst {α : Type} (l : List α) (a b : α) (d : α) :
    (l ++ [a, b]).getD l.length d = a := by
  rw [List.getD_eq_getElem?_getD, List.getElem?_append_right (Nat.le_refl _)]
  simp

theorem getD_append_two_snd {α : Type} (l : List α) (a b : α) (d : α) :
    (l ++ [a, b]).getD (l.length + 1) d = b := by
  rw [List.getD_eq_getElem?_getD, List.getElem?_append_right (Nat.le_succ _)]
  simp

theorem getD_append_double {α : Type} (l : List α) (i : Nat) (d : α)
    (h : i < 2 * l.length) : (l ++ l).getD i d = l.getD (i % l.length) d := by
  by_cases h1 : i < l.length
  · rw [getD_append_left _ _ _ _ h1, Nat.mod_eq_of_lt h1]
  · have hlen : l.length ≤ i := Nat.le_of_not_lt h1
    have hlt : i - l.length < l.length := by omega
    have hmod : i % l.length = i - l.length := by
      rw [Nat.mod_eq_sub_mod hlen, Nat.mod_eq_of_lt hlt]
    rw [List.getD_eq_getElem?_getD, List.getElem?_append_right hlen,
      ← List.getD_eq_getElem?_getD, hmod]

theorem insertList_mem (l : List (Nat × Nat)) (k v : Nat) :
    ∀ kv ∈ insertList l k v, kv = (k, v) ∨ kv ∈ l := by
  induction l with
  | nil =>
    intro kv hkv
    rcases List.mem_singleton.mp hkv with rfl
    exact Or.inl rfl
  | cons a t ih =>
    intro kv hkv
    unfold insertList at hkv
    by_cases ha : (a.1 == k) = true
    · rw [if_pos ha] at hkv
      rcases List.mem_cons.mp hkv with rfl | hkv
      · exact Or.inl rfl
      · exact Or.inr (List.mem_cons_of_mem a hkv)
    · rw [if_neg ha] at hkv
      rcases List.mem_cons.mp hkv with rfl | hkv
      · exact Or.inr (List.mem_cons_self _ _)
      · rcases ih kv hkv with h | h
        · exact Or.inl h
        · exact Or.inr (List.mem_cons_of_mem a h)

theorem insertList_find (l : List (Nat × Nat)) (k v : Nat) :
    (insertList l k v).find? (fun kv => kv.1 == k) = some (k, v) := by
  induction l with
  | nil => simp [insertList, List.find?]
  | cons a t ih =>
    unfold insertList
    by_cases ha : (a.1 == k) = true
    · rw [if_pos ha]
      simp [List.find?]
    · rw [if_neg ha]
      simp [List.find?, ha, ih]

theorem insertList_keys (l : List (Nat × Nat)) (k v : Nat) :
    ∀ a ∈ (insertList l k v).map (fun kv => kv.1),
      a = k ∨ a ∈ l.map (fun kv => kv.1) := by
  intro a ha
  rcases List.mem_map.mp ha with ⟨kv, hkv, rfl⟩
  rcases insertList_mem l k v kv hkv with rfl | h
  · exact Or.inl rfl
  · exact Or.inr (List.mem_map_of_mem _ h)

theorem insertList_keys_nodup (l : List (Nat × Nat)) (k v : Nat)
    (h : (l.map (fun kv => kv.1)).Nodup) :
    ((insertList l k v).map (fun kv => kv.1)).Nodup := by
  induction l with
  | nil => simp [insertList]
  | cons a t ih =>
    rw [List.map_cons, List.nodup_cons] at h
    unfold insertList
    by_cases ha : (a.1 == k) = true
    · rw [if_pos ha]
      rw [List.map_cons, List.nodup_cons]
      refine ⟨?_, h.2⟩
      have hk : a.1 = k := by simpa using ha
      rw [← hk]; exact h.1
    · rw [if_neg ha]
      rw [List.map_cons, List.nodup_cons]
      refine ⟨?_, ih h.2⟩
      intro hmem
      rcases insertList_keys t k v a.1 hmem with hk | hmem2
      · exact absurd (by simp [hk]) ha
      · exact h.1 hmem2

theorem insertList_of_fresh (l : List (Nat × Nat)) (k v : Nat)
    (h : k ∉ l.map (fun kv => kv.1)) : insertList l k v = l ++ [(k, v)] := by
  induction l with
  | nil => rfl
  | cons a t ih =>
    rw [List.map_cons] at h
    have hak : ¬(a.1 == k) = true := by
      simp only [beq_iff_eq]
      intro hc
      exact h (by rw [← hc]; exact List.mem_cons_self _ _)
    unfold insertList
    rw [if_neg hak, ih (fun hc => h (List.mem_cons_of_mem _ hc)), List.cons_append]

theorem filter_count_le_one (l : List (Nat × Nat)) (k : Nat)
    (h : (l.map (fun kv => kv.1)).Nodup) :
    (l.filter (fun kv => kv.1 == k)).length ≤ 1 := by
  induction l with
  | nil => simp
  | cons a t ih =>
    rw [List.map_cons, List.nodup_cons] at h
    rw [List.filter_cons]
    by_cases ha : (a.1 == k) = true
    · rw [if_pos ha]
      have hnil : t.filter (fun kv => kv.1 == k) = [] := by
        rw [List.filter_eq_nil_iff]
        intro kv hkv hc
        have h1 : kv.1 = k := by simpa using hc
        have h2 : a.1 = k := by simpa using ha
        exact h.1 (by rw [h2, ← h1]; exact List.mem_map_of_mem _ hkv)
      rw [hnil]
      simp
    · rw [if_neg ha]
      exact ih h.2

/-- Distributing a duplicate-free item list over the two fresh buckets
via `Bucket::Insert` (as `GrowLocal` does) appends exactly the items
whose hash has bit `L` set to the first bucket and the rest to the
second, in order. -/
theorem foldl_partition (hash : Nat → Nat) (L : Nat) :
    ∀ (l : List (Nat × Nat)) (b1 b2 : Bucket),
    (l.map (fun kv => kv.1)).Nodup →
    (∀ kv ∈ l, kv.1 ∉ b1.items.map (fun x => x.1)) →
    (∀ kv ∈ l, kv.1 ∉ b2.items.map (fun x => x.1)) →
    l.foldl (fun (acc : Bucket × Bucket) kv =>
        if hash kv.1 &&& 2 ^ L ≠ 0 then (acc.1.insertB kv.1 kv.2, acc.2)
        else (acc.1, acc.2.insertB kv.1 kv.2)) (b1, b2)
      = ({ b1 with items := b1.items ++ l.filter (fun kv => decide (hash kv.1 &&& 2 ^ L ≠ 0)) },
         { b2 with items := b2.items ++ l.filter (fun kv => !decide (hash kv.1 &&& 2 ^ L ≠ 0)) }) := by
  intro l
  induction l with
  | nil =>
    intro b1 b2 _ _ _
    simp
  | cons kv t ih =>
    intro b1 b2 hnd h1 h2
    rw [List.map_cons, List.nodup_cons] at hnd
    rw [List.foldl_cons, List.filter_cons, List.filter_cons]
    by_cases hb : hash kv.1 &&& 2 ^ L ≠ 0
    · rw [if_pos hb, if_pos (by simpa using hb), if_neg (by simpa using hb)]
      have hfresh : insertList b1.items kv.1 kv.2 = b1.items ++ [kv] :=
        insertList_of_fresh _ _ _ (h1 kv (List.mem_cons_self _ _))
      have hA : ∀ kv2 ∈ t, kv2.1 ∉ (b1.insertB kv.1 kv.2).items.map (fun x => x.1) := by
        intro kv2 hkv2
        show kv2.1 ∉ (insertList b1.items kv.1 kv.2).map (fun x => x.1)
        rw [hfresh, List.map_append]
        intro hc
        rcases List.mem_append.mp hc with hc | hc
        · exact h1 kv2 (List.mem_cons_of_mem _ hkv2) hc
        · have he : kv2.1 = kv.1 := by simpa using hc
          exact hnd.1 (by rw [← he]; exact List.mem_map_of_mem _ hkv2)
      have hB : ∀ kv2 ∈ t, kv2.1 ∉ b2.items.map (fun x => x.1) :=
        fun kv2 hkv2 => h2 kv2 (List.mem_cons_of_mem _ hkv2)
      rw [ih _ _ hnd.2 hA hB]
      rw [Prod.mk.injEq]
      refine ⟨?_, rfl⟩
      rw [Bucket.mk.injEq]
      refine ⟨rfl, rfl, ?_⟩
      rw [show (b1.insertB kv.1 kv.2).items = b1.items ++ [kv] from hfresh,
        List.append_assoc]
      rfl
    · rw [if_neg hb, if_neg (by simpa using hb), if_pos (by simpa using hb)]
      have hfresh : insertList b2.items kv.1 kv.2 = b2.items ++ [kv] :=
        insertList_of_fresh _ _ _ (h2 kv (List.mem_cons_self _ _))
      have hB : ∀ kv2 ∈ t, kv2.1 ∉ (b2.insertB kv.1 kv.2).items.map (fun x => x.1) := by
        intro kv2 hkv2
        show kv2.1 ∉ (insertList b2.items kv.1 kv.2).map (fun x => x.1)
        rw [hfresh, List.map_append]
        intro hc
        rcases List.mem_append.mp hc with hc | hc
        · exact h2 kv2 (List.mem_cons_of_mem _ hkv2) hc
        · have he : kv2.1 = kv.1 := by simpa using hc
          exact hnd.1 (by rw [← he]; exact List.mem_map_of_mem _ hkv2)
      have hA : ∀ kv2 ∈ t, kv2.1 ∉ b1.items.map (fun x => x.1) :=
        fun kv2 hkv2 => h1 kv2 (List.mem_cons_of_mem _ hkv2)
      rw [ih _ _ hnd.2 hA hB]
      rw [Prod.mk.injEq]
      refine ⟨rfl, ?_⟩
      rw [Bucket.mk.injEq]
      refine ⟨rfl, rfl, ?_⟩
      rw [show (b2.insertB kv.1 kv.2).items = b2.items ++ [kv] from hfresh,
        List.append_assoc]
      rfl

namespace EHT

theorem initT_inv (hash : Nat → Nat) (B : Nat) : (initT B).InvT hash := by
  have hl : (initT B).dir.length = 1 := rfl
  refine ⟨rfl, ?_, ?_, ?_, ?_, ?_, ?_⟩
  · intro i hi; rw [hl] at hi; interval_cases i; simp [initT, bucketIdAt]
  · intro i hi; rw [hl] at hi; interval_cases i; simp [initT, bucketAt, bucketIdAt]
  · intro i hi j hj hq; rw [hl] at hi hj; interval_cases i; interval_cases j; rfl
  · intro i hi j hj hq; rw [hl] at hi hj; interval_cases i; interval_cases j; rfl
  · intro i hi kv hkv; rw [hl] at hi; interval_cases i
    simp [initT, bucketAt, bucketIdAt] at hkv
  · intro i hi; rw [hl] at hi; interval_cases i; simp [initT, bucketAt, bucketIdAt]

theorem growGlobal_inv {hash : Nat → Nat} {t : EHT} (hinv : t.InvT hash) :
    (t.growGlobal).InvT hash := by
  obtain ⟨h1, h2, h3, h4, h5, h6, h7⟩ := hinv
  have hpos : 0 < t.dir.length := by
    rw [h1]; positivity
  have hlen2 : (t.growGlobal).dir.length = 2 * t.dir.length := by
    show (t.dir ++ t.dir).length = 2 * t.dir.length
    rw [List.length_append]; omega
  have hmlt : ∀ i : Nat, i % t.dir.length < t.dir.length := fun i => Nat.mod_lt i hpos
  have hida : ∀ i, i < 2 * t.dir.length →
      (t.growGlobal).bucketIdAt i = t.bucketIdAt (i % t.dir.length) := by
    intro i hi
    show (t.dir ++ t.dir).getD i 0 = t.dir.getD (i % t.dir.length) 0
    exact getD_append_double t.dir i 0 hi
  have hba : ∀ i, i < 2 * t.dir.length →
      (t.growGlobal).bucketAt i = t.bucketAt (i % t.dir.length) := by
    intro i hi
    show t.buckets.getD ((t.growGlobal).bucketIdAt i) default = _
    rw [hida i hi]
    rfl
  have hmod : ∀ (i L : Nat), L ≤ t.globalDepth →
      (i % t.dir.length) % 2 ^ L = i % 2 ^ L := by
    intro i L hLle
    rw [h1]
    exact Nat.mod_mod_of_dvd i (pow_dvd_pow 2 hLle)
  refine ⟨?_, ?_, ?_, ?_, ?_, ?_, ?_⟩
  · rw [hlen2, h1]
    show 2 * 2 ^ t.globalDepth = 2 ^ (t.globalDepth + 1)
    ring
  · intro i hi
    rw [hlen2] at hi
    rw [hida i hi]
    exact h2 _ (hmlt i)
  · intro i hi
    rw [hlen2] at hi
    rw [hba i hi]
    exact le_trans (h3 _ (hmlt i)) (Nat.le_succ _)
  · intro i hi j hj hmodij
    rw [hlen2] at hi hj
    rw [hida i hi, hida j hj]
    rw [hba i hi] at hmodij
    have hL := h3 _ (hmlt i)
    refine h4 _ (hmlt i) _ (hmlt j) ?_
    rw [hmod i _ hL, hmod j _ hL]
    exact hmodij
  · intro i hi j hj hid
    rw [hlen2] at hi hj
    rw [hida i hi, hida j hj] at hid
    rw [hba i hi]
    have hL := h3 _ (hmlt i)
    have hq := h5 _ (hmlt i) _ (hmlt j) hid
    rw [hmod i _ hL, hmod j _ hL] at hq
    exact hq
  · intro i hi kv hkv
    rw [hlen2] at hi
    rw [hba i hi] at hkv ⊢
    have hL := h3 _ (hmlt i)
    have hq := h6 _ (hmlt i) kv hkv
    rw [hmod i _ hL] at hq
    exact hq
  · intro i hi
    rw [hlen2] at hi
    rw [hba i hi]
    exact h7 _ (hmlt i)

end EHT

namespace EHT

/-- The state `GrowLocal` builds, as an explicit record: two fresh
buckets appended to the store and the split bucket's directory class
re-pointed by bit `L` of the slot. -/
def growLocalRecord (t : EHT) (index L : Nat) (newB oldB : Bucket) : EHT :=
  { globalDepth := t.globalDepth, bucketSize := t.bucketSize,
    numBuckets := t.numBuckets + 1,
    buckets := t.buckets ++ [newB, oldB],
    dir := (List.range t.dir.length).map (fun i =>
      if i % 2 ^ L = index % 2 ^ L then
        (if i &&& 2 ^ L ≠ 0 then t.buckets.length else t.buckets.length + 1)
      else t.dir.getD i 0) }

theorem growLocalRecord_inv (hash : Nat → Nat) (t : EHT) (index L : Nat)
    (newB oldB : Bucket) (hinv : t.InvT hash) (hidx : index < t.dir.length)
    (hLeq : L = (t.bucketAt index).depth) (hdep : L < t.globalDepth)
    (hnewd : newB.depth = L + 1) (holdd : oldB.depth = L + 1)
    (hnewi : newB.items
      = (t.bucketAt index).items.filter (fun kv => decide (hash kv.1 &&& 2 ^ L ≠ 0)))
    (holdi : oldB.items
      = (t.bucketAt index).items.filter (fun kv => !decide (hash kv.1 &&& 2 ^ L ≠ 0))) :
    (growLocalRecord t index L newB oldB).InvT hash := by
  obtain ⟨h1, h2, h3, h4, h5, h6, h7⟩ := hinv
  have hlen' : (growLocalRecord t index L newB oldB).dir.length = t.dir.length := by
    show ((List.range t.dir.length).map _).length = _
    rw [List.length_map, List.length_range]
  have hid' : ∀ i < t.dir.length, (growLocalRecord t index L newB oldB).bucketIdAt i =
      if i % 2 ^ L = index % 2 ^ L then
        (if i &&& 2 ^ L ≠ 0 then t.buckets.length else t.buckets.length + 1)
      else t.bucketIdAt i := by
    intro i hi
    show ((List.range t.dir.length).map _).getD i 0 = _
    rw [range_map_getD _ _ _ _ hi]
    rfl
  have hbuck' : ∀ i < t.dir.length, (growLocalRecord t index L newB oldB).bucketAt i =
      if i % 2 ^ L = index % 2 ^ L then (if i &&& 2 ^ L ≠ 0 then newB else oldB)
      else t.bucketAt i := by
    intro i hi
    show (t.buckets ++ [newB, oldB]).getD
      ((growLocalRecord t index L newB oldB).bucketIdAt i) default = _
    rw [hid' i hi]
    by_cases hc : i % 2 ^ L = index % 2 ^ L
    · rw [if_pos hc, if_pos hc]
      by_cases hbit : i &&& 2 ^ L ≠ 0
      · rw [if_pos hbit, if_pos hbit]
        exact getD_append_two_fst _ _ _ _
      · rw [if_neg hbit, if_neg hbit]
        exact getD_append_two_snd _ _ _ _
    · rw [if_neg hc, if_neg hc]
      exact getD_append_left _ _ _ _ (h2 i hi)
  have hclass_id : ∀ i < t.dir.length, i % 2 ^ L = index % 2 ^ L →
      t.bucketIdAt i = t.bucketIdAt index := by
    intro i hi hc
    refine (h4 index hidx i hi ?_).symm
    rw [← hLeq]
    exact hc.symm
  have hclass_of_id : ∀ i < t.dir.length, t.bucketIdAt i = t.bucketIdAt index →
      i % 2 ^ L = index % 2 ^ L := by
    intro i hi hid
    have hq := h5 index hidx i hi hid.symm
    rw [← hLeq] at hq
    exact hq.symm
  refine ⟨?_, ?_, ?_, ?_, ?_, ?_, ?_⟩
  · rw [hlen']
    exact h1
  · intro i hi
    rw [hlen'] at hi
    rw [hid' i hi]
    show _ < (t.buckets ++ [newB, oldB]).length
    rw [List.length_append]
    by_cases hc : i % 2 ^ L = index % 2 ^ L
    · rw [if_pos hc]
      by_cases hbit : i &&& 2 ^ L ≠ 0
      · rw [if_pos hbit]; simp
      · rw [if_neg hbit]; simp
    · rw [if_neg hc]
      have := h2 i hi
      simp
      omega
  · intro i hi
    rw [hlen'] at hi
    rw [hbuck' i hi]
    by_cases hc : i % 2 ^ L = index % 2 ^ L
    · rw [if_pos hc]
      by_cases hbit : i &&& 2 ^ L ≠ 0
      · rw [if_pos hbit]
        show newB.depth ≤ t.globalDepth
        rw [hnewd]; omega
      · rw [if_neg hbit]
        show oldB.depth ≤ t.globalDepth
        rw [holdd]; omega
    · rw [if_neg hc]
      exact h3 i hi
  · intro i hi j hj hmodij
    rw [hlen'] at hi hj
    rw [hbuck' i hi] at hmodij
    rw [hid' i hi, hid' j hj]
    by_cases hc : i % 2 ^ L = index % 2 ^ L
    · rw [if_pos hc] at hmodij
      have hdepth : (if i &&& 2 ^ L ≠ 0 then newB else oldB).depth = L + 1 := by
        by_cases hbit : i &&& 2 ^ L ≠ 0
        · rw [if_pos hbit]; exact hnewd
        · rw [if_neg hbit]; exact holdd
      rw [hdepth] at hmodij
      have hcj : j % 2 ^ L = index % 2 ^ L := by
        rw [← hc]
        exact (mod_pow_le j i (Nat.le_succ L) hmodij.symm)
      have hbitseq : i.testBit L = j.testBit L := testBit_eq_of_mod_succ i j L hmodij
      rw [if_pos hc, if_pos hcj]
      by_cases hbit : i &&& 2 ^ L ≠ 0
      · have hbitj : j &&& 2 ^ L ≠ 0 := by
          rw [and_two_pow_ne] at hbit ⊢
          rw [← hbitseq]; exact hbit
        rw [if_pos hbit, if_pos hbitj]
      · have hbitj : ¬ j &&& 2 ^ L ≠ 0 := by
          intro hcj2
          rw [and_two_pow_ne] at hcj2
          exact hbit (by rw [and_two_pow_ne, hbitseq]; exact hcj2)
        rw [if_neg hbit, if_neg hbitj]
    · rw [if_neg hc] at hmodij
      rw [if_neg hc]
      have hcj : ¬ j % 2 ^ L = index % 2 ^ L := by
        intro hcj
        have hidj : t.bucketIdAt j = t.bucketIdAt index := hclass_id j hj hcj
        have hidij : t.bucketIdAt i = t.bucketIdAt j := h4 i hi j hj hmodij
        exact hc (hclass_of_id i hi (hidij.trans hidj))
      rw [if_neg hcj]
      exact h4 i hi j hj hmodij
  · intro i hi j hj hid
    rw [hlen'] at hi hj
    rw [hid' i hi, hid' j hj] at hid
    rw [hbuck' i hi]
    by_cases hc : i % 2 ^ L = index % 2 ^ L
    · rw [if_pos hc] at hid ⊢
      by_cases hcj : j % 2 ^ L = index % 2 ^ L
      · rw [if_pos hcj] at hid
        have hdepth : (if i &&& 2 ^ L ≠ 0 then newB else oldB).depth = L + 1 := by
          by_cases hbit : i &&& 2 ^ L ≠ 0
          · rw [if_pos hbit]; exact hnewd
          · rw [if_neg hbit]; exact holdd
        rw [hdepth]
        have hbits : i.testBit L = j.testBit L := by
          by_cases hbit : i &&& 2 ^ L ≠ 0 <;> by_cases hbitj : j &&& 2 ^ L ≠ 0
          · rw [and_two_pow_ne] at hbit hbitj
            rw [hbit, hbitj]
          · rw [if_pos hbit, if_neg hbitj] at hid
            omega
          · rw [if_neg hbit, if_pos hbitj] at hid
            omega
          · rw [and_two_pow_ne] at hbit hbitj
            simp only [Bool.not_eq_true] at hbit hbitj
            rw [hbit, hbitj]
        exact mod_succ_eq_of_mod_testBit i j L (by rw [hc, hcj]) hbits
      · rw [if_neg hcj] at hid
        exfalso
        have hj2 := h2 j hj
        by_cases hbit : i &&& 2 ^ L ≠ 0
        · rw [if_pos hbit] at hid
          omega
        · rw [if_neg hbit] at hid
          omega
    · rw [if_neg hc] at hid ⊢
      by_cases hcj : j % 2 ^ L = index % 2 ^ L
      · rw [if_pos hcj] at hid
        exfalso
        have hi2 := h2 i hi
        by_cases hbit : j &&& 2 ^ L ≠ 0
        · rw [if_pos hbit] at hid
          omega
        · rw [if_neg hbit] at hid
          omega
      · rw [if_neg hcj] at hid
        exact h5 i hi j hj hid
  · intro i hi kv hkv
    rw [hlen'] at hi
    rw [hbuck' i hi] at hkv ⊢
    by_cases hc : i % 2 ^ L = index % 2 ^ L
    · rw [if_pos hc] at hkv ⊢
      have hmodi : hash kv.1 % 2 ^ L = i % 2 ^ L := by
        have hmem : kv ∈ (t.bucketAt index).items := by
          by_cases hbit : i &&& 2 ^ L ≠ 0
          · rw [if_pos hbit] at hkv
            rw [hnewi] at hkv
            exact (List.mem_filter.mp hkv).1
          · rw [if_neg hbit] at hkv
            rw [holdi] at hkv
            exact (List.mem_filter.mp hkv).1
        have hq := h6 index hidx kv hmem
        rw [← hLeq] at hq
        rw [hq, hc]
      by_cases hbit : i &&& 2 ^ L ≠ 0
      · rw [if_pos hbit] at hkv ⊢
        rw [hnewd]
        rw [hnewi] at hkv
        have hbithash : (hash kv.1).testBit L = true := by
          have := (List.mem_filter.mp hkv).2
          rw [← and_two_pow_ne]
          simpa using this
        have hbiti : i.testBit L = true := (and_two_pow_ne i L).mp hbit
        exact mod_succ_eq_of_mod_testBit _ _ _ hmodi (by rw [hbithash, hbiti])
      · rw [if_neg hbit] at hkv ⊢
        rw [holdd]
        rw [holdi] at hkv
        have hbithash : (hash kv.1).testBit L = false := by
          have hq := (List.mem_filter.mp hkv).2
          simp only [Bool.not_eq_true', decide_eq_false_iff_not] at hq
          rcases hb2 : (hash kv.1).testBit L
          · rfl
          · exact absurd ((and_two_pow_ne _ _).mpr hb2) hq
        have hbiti : i.testBit L = false := by
          rcases hb2 : i.testBit L
          · rfl
          · exact absurd ((and_two_pow_ne _ _).mpr hb2) hbit
        exact mod_succ_eq_of_mod_testBit _ _ _ hmodi (by rw [hbithash, hbiti])
    · rw [if_neg hc] at hkv ⊢
      exact h6 i hi kv hkv
  · intro i hi
    rw [hlen'] at hi
    rw [hbuck' i hi]
    by_cases hc : i % 2 ^ L = index % 2 ^ L
    · rw [if_pos hc]
      by_cases hbit : i &&& 2 ^ L ≠ 0
      · rw [if_pos hbit, hnewi]
        exact (h7 index hidx).sublist (List.Sublist.map _ (List.filter_sublist _))
      · rw [if_neg hbit, holdi]
        exact (h7 index hidx).sublist (List.Sublist.map _ (List.filter_sublist _))
    · rw [if_neg hc]
      exact h7 i hi

end EHT

namespace EHT

theorem growLocal_inv {hash : Nat → Nat} {t : EHT} {index : Nat}
    (hinv : t.InvT hash) (hidx : index < t.dir.length)
    (hdep : (t.bucketAt index).depth < t.globalDepth) :
    (t.growLocal hash index).InvT hash := by
  have hnd : ((t.buckets.getD (t.bucketIdAt index) default).items.map
      (fun kv => kv.1)).Nodup := hinv.2.2.2.2.2.2 index hidx
  have hfil := foldl_partition hash (t.buckets.getD (t.bucketIdAt index) default).depth
    (t.buckets.getD (t.bucketIdAt index) default).items
    { size := t.bucketSize,
      depth := (t.buckets.getD (t.bucketIdAt index) default).depth + 1, items := [] }
    { size := t.bucketSize,
      depth := (t.buckets.getD (t.bucketIdAt index) default).depth + 1, items := [] }
    hnd (by intro kv _ hc; cases hc) (by intro kv _ hc; cases hc)
  have hgl : t.growLocal hash index =
      growLocalRecord t index (t.buckets.getD (t.bucketIdAt index) default).depth
        { size := t.bucketSize,
          depth := (t.buckets.getD (t.bucketIdAt index) default).depth + 1,
          items := (t.buckets.getD (t.bucketIdAt index) default).items.filter
            (fun kv => decide (hash kv.1 &&&
              2 ^ (t.buckets.getD (t.bucketIdAt index) default).depth ≠ 0)) }
        { size := t.bucketSize,
          depth := (t.buckets.getD (t.bucketIdAt index) default).depth + 1,
          items := (t.buckets.getD (t.bucketIdAt index) default).items.filter
            (fun kv => !decide (hash kv.1 &&&
              2 ^ (t.buckets.getD (t.bucketIdAt index) default).depth ≠ 0)) } := by
    unfold growLocal growLocalRecord
    dsimp only
    rw [hfil]
    rfl
  rw [hgl]
  exact growLocalRecord_inv hash t index _ _ _ hinv hidx rfl hdep rfl rfl rfl rfl

/-- Invariant preservation for the in-place `Bucket::Insert` taken by
`ExtendibleHashTable::Insert` when the target bucket has room. -/
theorem setBucket_inv {hash : Nat → Nat} {t : EHT} (k v : Nat) (hinv : t.InvT hash)
    (hidx : indexOf hash t k < t.dir.length) :
    ({ t with buckets := (t.buckets.set (t.bucketIdAt (indexOf hash t k))
        ((t.bucketAt (indexOf hash t k)).insertB k v)) } : EHT).InvT hash := by
  obtain ⟨h1, h2, h3, h4, h5, h6, h7⟩ := hinv
  have hbid : t.bucketIdAt (indexOf hash t k) < t.buckets.length := h2 _ hidx
  have hba : ∀ i < t.dir.length,
      ({ t with buckets := (t.buckets.set (t.bucketIdAt (indexOf hash t k))
        ((t.bucketAt (indexOf hash t k)).insertB k v)) } : EHT).bucketAt i =
      if t.bucketIdAt i = t.bucketIdAt (indexOf hash t k) then
        (t.bucketAt (indexOf hash t k)).insertB k v
      else t.bucketAt i := by
    intro i hi
    show (t.buckets.set _ _).getD (t.bucketIdAt i) default = _
    by_cases hc : t.bucketIdAt i = t.bucketIdAt (indexOf hash t k)
    · rw [if_pos hc, hc, getD_set_eq _ _ _ _ hbid]
    · rw [if_neg hc, getD_set_ne _ _ _ _ _ hc]
      rfl
  have hdeptheq : ∀ i < t.dir.length,
      (({ t with buckets := (t.buckets.set (t.bucketIdAt (indexOf hash t k))
        ((t.bucketAt (indexOf hash t k)).insertB k v)) } : EHT).bucketAt i).depth =
      (t.bucketAt i).depth := by
    intro i hi
    rw [hba i hi]
    by_cases hc : t.bucketIdAt i = t.bucketIdAt (indexOf hash t k)
    · rw [if_pos hc]
      show (t.bucketAt (indexOf hash t k)).depth = _
      have : t.bucketAt i = t.bucketAt (indexOf hash t k) := by
        show t.buckets.getD _ default = _
        rw [hc]
        rfl
      rw [this]
    · rw [if_neg hc]
  refine ⟨h1, ?_, ?_, ?_, ?_, ?_, ?_⟩
  · intro i hi
    show t.bucketIdAt i < (t.buckets.set _ _).length
    rw [List.length_set]
    exact h2 i hi
  · intro i hi
    rw [hdeptheq i hi]
    exact h3 i hi
  · intro i hi j hj hm
    rw [hdeptheq i hi] at hm
    exact h4 i hi j hj hm
  · intro i hi j hj hm
    rw [hdeptheq i hi]
    exact h5 i hi j hj hm
  · intro i hi kv hkv
    rw [hdeptheq i hi]
    rw [hba i hi] at hkv
    by_cases hc : t.bucketIdAt i = t.bucketIdAt (indexOf hash t k)
    · rw [if_pos hc] at hkv
      have hbeq : t.bucketAt i = t.bucketAt (indexOf hash t k) := by
        show t.buckets.getD _ default = _
        rw [hc]
        rfl
      rcases insertList_mem _ _ _ kv hkv with rfl | hmem
      · have hLle : (t.bucketAt i).depth ≤ t.globalDepth := h3 i hi
        have hmod1 : hash k % 2 ^ (t.bucketAt i).depth
            = indexOf hash t k % 2 ^ (t.bucketAt i).depth := by
          show hash k % 2 ^ (t.bucketAt i).depth
            = (hash k % 2 ^ t.globalDepth) % 2 ^ (t.bucketAt i).depth
          rw [Nat.mod_mod_of_dvd (hash k) (pow_dvd_pow 2 hLle)]
        have hmod2 : i % 2 ^ (t.bucketAt i).depth
            = indexOf hash t k % 2 ^ (t.bucketAt i).depth :=
          h5 i hi _ hidx hc
        rw [hmod1, hmod2]
      · have := h6 (indexOf hash t k) hidx kv hmem
        rw [← hbeq] at this
        have hmod2 : i % 2 ^ (t.bucketAt i).depth
            = indexOf hash t k % 2 ^ (t.bucketAt i).depth :=
          h5 i hi _ hidx hc
        rw [this]
        exact hmod2.symm
    · rw [if_neg hc] at hkv
      exact h6 i hi kv hkv
  · intro i hi
    rw [hba i hi]
    by_cases hc : t.bucketIdAt i = t.bucketIdAt (indexOf hash t k)
    · rw [if_pos hc]
      have hbeq : t.bucketAt i = t.bucketAt (indexOf hash t k) := by
        show t.buckets.getD _ default = _
        rw [hc]
        rfl
      show ((insertList (t.bucketAt (indexOf hash t k)).items k v).map _).Nodup
      refine insertList_keys_nodup _ _ _ ?_
      rw [← hbeq]
      exact h7 i hi
    · rw [if_neg hc]
      exact h7 i hi

end EHT

namespace EHT

theorem indexOf_lt {hash : Nat → Nat} {t : EHT} (hinv : t.InvT hash) (k : Nat) :
    indexOf hash t k < t.dir.length := by
  rw [hinv.1]
  exact Nat.mod_lt _ (by positivity)

theorem growGlobal_bucketAt (t : EHT) (i : Nat) (hi : i < 2 * t.dir.length) :
    (t.growGlobal).bucketAt i = t.bucketAt (i % t.dir.length) := by
  show t.buckets.getD ((t.dir ++ t.dir).getD i 0) default = _
  rw [getD_append_double t.dir i 0 hi]
  rfl

/-- A terminating `Insert` preserves the directory invariants and makes
the key findable with the inserted value. -/
theorem insertT_ok (hash : Nat → Nat) : ∀ (fuel : Nat) (t t' : EHT) (k v : Nat),
    t.InvT hash → insertT hash fuel t k v = some t' →
    t'.InvT hash ∧ t'.findT hash k = some v := by
  intro fuel
  induction fuel with
  | zero =>
    intro t t' k v _ h
    exact Option.noConfusion h
  | succ n ih =>
    intro t t' k v hinv h
    have hidx : indexOf hash t k < t.dir.length := indexOf_lt hinv k
    have hbid : t.bucketIdAt (indexOf hash t k) < t.buckets.length := hinv.2.1 _ hidx
    simp only [insertT] at h
    split at h
    next hfull =>
      injection h with h
      subst h
      refine ⟨setBucket_inv k v hinv hidx, ?_⟩
      show ((t.buckets.set (t.bucketIdAt (indexOf hash t k))
        ((t.bucketAt (indexOf hash t k)).insertB k v)).getD
          (t.bucketIdAt (indexOf hash t k)) default).findB k = some v
      rw [getD_set_eq _ _ _ _ hbid]
      show ((insertList (t.bucketAt (indexOf hash t k)).items k v).find?
        (fun kv => kv.1 == k)).map (fun kv => kv.2) = some v
      rw [insertList_find]
      rfl
    next hfull =>
      by_cases hgg : (t.bucketAt (indexOf hash t k)).depth = t.globalDepth
      · rw [if_pos hgg] at h
        have hinv1 : (t.growGlobal).InvT hash := growGlobal_inv hinv
        have hpos : 0 < t.dir.length := by
          rw [hinv.1]; positivity
        have hlen2 : (t.growGlobal).dir.length = 2 * t.dir.length := by
          show (t.dir ++ t.dir).length = _
          rw [List.length_append]; omega
        have hi1 : indexOf hash (t.growGlobal) k < 2 * t.dir.length := by
          have := indexOf_lt hinv1 k
          rw [hlen2] at this
          exact this
        have hlt : ((t.growGlobal).bucketAt (indexOf hash (t.growGlobal) k)).depth <
            (t.growGlobal).globalDepth := by
          rw [growGlobal_bucketAt t _ hi1]
          have hle := hinv.2.2.1 _ (Nat.mod_lt (indexOf hash (t.growGlobal) k) hpos)
          have hG1 : (t.growGlobal).globalDepth = t.globalDepth + 1 := rfl
          omega
        rw [if_neg (not_le.mpr hlt)] at h
        exact ih _ _ _ _ (growLocal_inv hinv1 (indexOf_lt hinv1 k) hlt) h
      · rw [if_neg hgg] at h
        have hlt : (t.bucketAt (indexOf hash t k)).depth < t.globalDepth :=
          lt_of_le_of_ne (hinv.2.2.1 _ hidx) hgg
        rw [if_neg (not_le.mpr hlt)] at h
        exact ih _ _ _ _ (growLocal_inv hinv hidx hlt) h

end EHT

namespace EHT

/-- Replacing the bucket of one directory class by a bucket of the same
depth holding a subset of its items preserves the invariants (covers
`Bucket::Remove`). -/
theorem setBucketWeak_inv {hash : Nat → Nat} {t : EHT} {idx : Nat} {b' : Bucket}
    (hinv : t.InvT hash) (hidx : idx < t.dir.length)
    (hd : b'.depth = (t.bucketAt idx).depth)
    (hsub : b'.items.Sublist (t.bucketAt idx).items) :
    ({ t with buckets := t.buckets.set (t.bucketIdAt idx) b' } : EHT).InvT hash := by
  obtain ⟨h1, h2, h3, h4, h5, h6, h7⟩ := hinv
  have hbid : t.bucketIdAt idx < t.buckets.length := h2 _ hidx
  have hba : ∀ i < t.dir.length,
      ({ t with buckets := t.buckets.set (t.bucketIdAt idx) b' } : EHT).bucketAt i =
      if t.bucketIdAt i = t.bucketIdAt idx then b' else t.bucketAt i := by
    intro i hi
    show (t.buckets.set _ _).getD (t.bucketIdAt i) default = _
    by_cases hc : t.bucketIdAt i = t.bucketIdAt idx
    · rw [if_pos hc, hc, getD_set_eq _ _ _ _ hbid]
    · rw [if_neg hc, getD_set_ne _ _ _ _ _ hc]
      rfl
  have hbeqid : ∀ i < t.dir.length, t.bucketIdAt i = t.bucketIdAt idx →
      t.bucketAt i = t.bucketAt idx := by
    intro i hi hc
    show t.buckets.getD _ default = _
    rw [hc]
    rfl
  have hdeptheq : ∀ i < t.dir.length,
      (({ t with buckets := t.buckets.set (t.bucketIdAt idx) b' } : EHT).bucketAt i).depth =
      (t.bucketAt i).depth := by
    intro i hi
    rw [hba i hi]
    by_cases hc : t.bucketIdAt i = t.bucketIdAt idx
    · rw [if_pos hc, hd, hbeqid i hi hc]
    · rw [if_neg hc]
  refine ⟨h1, ?_, ?_, ?_, ?_, ?_, ?_⟩
  · intro i hi
    show t.bucketIdAt i < (t.buckets.set _ _).length
    rw [List.length_set]
    exact h2 i hi
  · intro i hi
    rw [hdeptheq i hi]
    exact h3 i hi
  · intro i hi j hj hm
    rw [hdeptheq i hi] at hm
    exact h4 i hi j hj hm
  · intro i hi j hj hm
    rw [hdeptheq i hi]
    exact h5 i hi j hj hm
  · intro i hi kv hkv
    rw [hdeptheq i hi]
    rw [hba i hi] at hkv
    by_cases hc : t.bucketIdAt i = t.bucketIdAt idx
    · rw [if_pos hc] at hkv
      have hmem : kv ∈ (t.bucketAt idx).items := hsub.mem hkv
      have := h6 idx hidx kv hmem
      rw [← hbeqid i hi hc] at this
      rw [this]
      exact (h5 i hi idx hidx hc).symm
    · rw [if_neg hc] at hkv
      exact h6 i hi kv hkv
  · intro i hi
    rw [hba i hi]
    by_cases hc : t.bucketIdAt i = t.bucketIdAt idx
    · rw [if_pos hc]
      have hmsub : (b'.items.map (fun kv => kv.1)).Sublist
          ((t.bucketAt idx).items.map (fun kv => kv.1)) := hsub.map _
      exact (h7 idx hidx).sublist hmsub
    · rw [if_neg hc]
      exact h7 i hi

/-- `ExtendibleHashTable::Remove` preserves the directory invariants. -/
theorem removeT_inv {hash : Nat → Nat} {t : EHT} (k : Nat) (hinv : t.InvT hash) :
    ((t.removeT hash k).1).InvT hash := by
  have hidx : indexOf hash t k < t.dir.length := indexOf_lt hinv k
  show ({ t with buckets := (t.buckets.set (t.bucketIdAt (indexOf hash t k))
      ((t.bucketAt (indexOf hash t k)).removeB k).1) } : EHT).InvT hash
  refine setBucketWeak_inv hinv hidx ?_ ?_
  · unfold Bucket.removeB
    split <;> rfl
  · unfold Bucket.removeB
    split
    · exact List.eraseP_sublist _
    · exact List.Sublist.refl _

theorem applyTOp_inv {hash : Nat → Nat} {t t' : EHT} {op : TOp}
    (hinv : t.InvT hash) (h : applyTOp hash t op = some t') : t'.InvT hash := by
  cases op with
  | ins k v fuel => exact (insertT_ok hash fuel t t' k v hinv h).1
  | rem k =>
    injection h with h
    subst h
    exact removeT_inv k hinv

theorem runTOps_inv (hash : Nat → Nat) : ∀ (ops : List TOp) (t t' : EHT),
    t.InvT hash → runTOps hash t ops = some t' → t'.InvT hash := by
  intro ops
  induction ops with
  | nil =>
    intro t t' hinv h
    injection h with h
    subst h
    exact hinv
  | cons op ops ih =>
    intro t t' hinv h
    simp only [runTOps] at h
    cases hap : applyTOp hash t op with
    | none => rw [hap] at h; exact Option.noConfusion h
    | some t1 => rw [hap] at h; exact ih t1 t' (applyTOp_inv hinv hap) h

/-- Every reachable table state satisfies the directory invariants. -/
theorem reachableT_inv {hash : Nat → Nat} {B : Nat} {t : EHT}
    (h : EHT.ReachableT hash B t) : t.InvT hash := by
  obtain ⟨ops, hops⟩ := h
  exact runTOps_inv hash ops _ _ (initT_inv hash B) hops

end EHT

namespace EHT

theorem growLocal_dir_length (hash : Nat → Nat) (t : EHT) (index : Nat) :
    (t.growLocal hash index).dir.length = t.dir.length := by
  unfold growLocal
  dsimp only
  rw [List.length_map, List.length_range]

/-- `GrowLocal` characterised: provided the split bucket has no duplicate
keys, the result is the explicit record whose two fresh buckets hold the
two filter halves of the old items. -/
theorem growLocal_eq (hash : Nat → Nat) (t : EHT) (index : Nat)
    (hnd : ((t.buckets.getD (t.bucketIdAt index) default).items.map
      (fun kv => kv.1)).Nodup) :
    t.growLocal hash index =
      growLocalRecord t index (t.buckets.getD (t.bucketIdAt index) default).depth
        { size := t.bucketSize,
          depth := (t.buckets.getD (t.bucketIdAt index) default).depth + 1,
          items := (t.buckets.getD (t.bucketIdAt index) default).items.filter
            (fun kv => decide (hash kv.1 &&&
              2 ^ (t.buckets.getD (t.bucketIdAt index) default).depth ≠ 0)) }
        { size := t.bucketSize,
          depth := (t.buckets.getD (t.bucketIdAt index) default).depth + 1,
          items := (t.buckets.getD (t.bucketIdAt index) default).items.filter
            (fun kv => !decide (hash kv.1 &&&
              2 ^ (t.buckets.getD (t.bucketIdAt index) default).depth ≠ 0)) } := by
  have hfil := foldl_partition hash (t.buckets.getD (t.bucketIdAt index) default).depth
    (t.buckets.getD (t.bucketIdAt index) default).items
    { size := t.bucketSize,
      depth := (t.buckets.getD (t.bucketIdAt index) default).depth + 1, items := [] }
    { size := t.bucketSize,
      depth := (t.buckets.getD (t.bucketIdAt index) default).depth + 1, items := [] }
    hnd (by intro kv _ hc; cases hc) (by intro kv _ hc; cases hc)
  unfold growLocal growLocalRecord
  dsimp only
  rw [hfil]
  rfl

theorem growLocalRecord_bucketAt_zero (t : EHT) (L : Nat) (newB oldB : Bucket)
    (hpos : 0 < t.dir.length) :
    (growLocalRecord t 0 L newB oldB).bucketAt 0 = oldB := by
  show (t.buckets ++ [newB, oldB]).getD
    (((List.range t.dir.length).map _).getD 0 0) default = oldB
  rw [range_map_getD _ 0 _ 0 hpos]
  rw [if_pos rfl, if_neg (by rw [Nat.zero_and]; exact fun hc => hc rfl)]
  exact getD_append_two_snd _ _ _ _

end EHT

namespace EHT

/-- The recurring shape of the diverging `Insert`: a one-slot-per-bucket
table whose slot for key 0 holds exactly the full bucket `[(0, 5)]` at
local depth `G`.  Re-inserting key 0 never terminates: the full-bucket
check precedes the key-presence check, the split keeps the lone item
together, and the shape recurs at global depth `G + 1`. -/
theorem insertT_stuck : ∀ (fuel g : Nat) (t : EHT),
    t.globalDepth = g → t.bucketSize = 1 → t.dir.length = 2 ^ g →
    t.bucketAt 0 = { size := 1, depth := g, items := [(0, 5)] } →
    insertT (fun x => x) fuel t 0 6 = none := by
  intro fuel
  induction fuel with
  | zero =>
    intro g t _ _ _ _
    rfl
  | succ n ih =>
    intro g t h1 h2 h3 h4
    have hpos : 0 < t.dir.length := by
      rw [h3]; positivity
    have hix : indexOf (fun x => x) t 0 = 0 := by
      show (fun x => x) 0 % 2 ^ t.globalDepth = 0
      exact Nat.zero_mod _
    simp only [insertT]
    rw [hix, h4]
    rw [if_neg (show ¬¬(({ size := 1, depth := g, items := [(0, 5)] } : Bucket).isFull
      = true) from fun hc => hc rfl)]
    rw [if_pos (show ({ size := 1, depth := g, items := [(0, 5)] } : Bucket).depth
      = t.globalDepth from h1.symm)]
    have hix1 : indexOf (fun x => x) t.growGlobal 0 = 0 := by
      show (fun x => x) 0 % 2 ^ t.growGlobal.globalDepth = 0
      exact Nat.zero_mod _
    rw [hix1]
    have hba1 : t.growGlobal.bucketAt 0 = t.bucketAt 0 := by
      rw [growGlobal_bucketAt t 0 (by omega), Nat.zero_mod]
    rw [hba1, h4]
    rw [if_neg (show ¬(({ size := 1, depth := g, items := [(0, 5)] } : Bucket).depth
      ≥ t.growGlobal.globalDepth) from by
        show ¬(g ≥ t.globalDepth + 1)
        omega)]
    have hb2 : t.growGlobal.buckets.getD (t.growGlobal.bucketIdAt 0) default
        = ({ size := 1, depth := g, items := [(0, 5)] } : Bucket) := hba1.trans h4
    have hnd2 : ((t.growGlobal.buckets.getD (t.growGlobal.bucketIdAt 0) default).items.map
        (fun kv => kv.1)).Nodup := by
      rw [hb2]
      simp
    have hposG : 0 < t.growGlobal.dir.length := by
      show 0 < (t.dir ++ t.dir).length
      rw [List.length_append]
      omega
    apply ih (g + 1)
    · show t.globalDepth + 1 = g + 1
      rw [h1]
    · show t.bucketSize = 1
      exact h2
    · rw [growLocal_dir_length]
      show (t.dir ++ t.dir).length = 2 ^ (g + 1)
      rw [List.length_append, h3, pow_succ]
      omega
    · rw [growLocal_eq (fun x => x) t.growGlobal 0 hnd2]
      rw [growLocalRecord_bucketAt_zero _ _ _ _ hposG]
      rw [hb2]
      dsimp only
      rw [show t.growGlobal.bucketSize = 1 from h2]
      simp [Nat.zero_and]

end EHT

/-- The table reached from a fresh `ExtendibleHashTable(1)` by the single
terminating call `Insert(3, 7)` (hash = identity). -/
def c6state : EHT :=
  { globalDepth := 0, bucketSize := 1, numBuckets := 1,
    buckets := [{ size := 1, depth := 0, items := [(3, 7)] }], dir := [0] }

/-- C6: after every terminating sequence of Insert/Remove operations the
directory has exactly `2^G` slots; every bucket's local depth `L` is at
most `G`; every key stored in a bucket hashes to a value whose low-`L`
bits equal the bucket's discriminant (its slot's low-`L` bits); and every
directory slot agreeing with a slot on those low-`L` bits refers to the
same bucket. -/
theorem c6_directory_structure (hash : Nat → Nat) (B : Nat) (t : EHT)
    (hreach : EHT.ReachableT hash B t) :
    t.dir.length = 2 ^ t.globalDepth ∧
    (∀ i < t.dir.length, (t.bucketAt i).depth ≤ t.globalDepth) ∧
    (∀ i < t.dir.length, ∀ kv ∈ (t.bucketAt i).items,
      hash kv.1 % 2 ^ (t.bucketAt i).depth = i % 2 ^ (t.bucketAt i).depth) ∧
    (∀ i < t.dir.length, ∀ j < t.dir.length,
      j % 2 ^ (t.bucketAt i).depth = i % 2 ^ (t.bucketAt i).depth →
        t.bucketIdAt j = t.bucketIdAt i) := by
  obtain ⟨h1, h2, h3, h4, h5, h6, h7⟩ := EHT.reachableT_inv hreach
  exact ⟨h1, h3, h6, fun i hi j hj hm => (h4 i hi j hj hm.symm).symm⟩

/-- Witness for C6 at hash = identity, bucket capacity 1, after
`Insert(3, 7)`. -/
theorem c6_witness :
    EHT.ReachableT (fun x => x) 1 c6state ∧
    (c6state.dir.length = 2 ^ c6state.globalDepth ∧
     (∀ i < c6state.dir.length, (c6state.bucketAt i).depth ≤ c6state.globalDepth) ∧
     (∀ i < c6state.dir.length, ∀ kv ∈ (c6state.bucketAt i).items,
       (fun x => x) kv.1 % 2 ^ (c6state.bucketAt i).depth
         = i % 2 ^ (c6state.bucketAt i).depth) ∧
     (∀ i < c6state.dir.length, ∀ j < c6state.dir.length,
       j % 2 ^ (c6state.bucketAt i).depth = i % 2 ^ (c6state.bucketAt i).depth →
         c6state.bucketIdAt j = c6state.bucketIdAt i)) := by
  have hreach : EHT.ReachableT (fun x => x) 1 c6state := ⟨[TOp.ins 3 7 1], by decide⟩
  exact ⟨hreach, c6_directory_structure (fun x => x) 1 c6state hreach⟩

/-- The table reached from a fresh `ExtendibleHashTable(1)` by the single
terminating call `Insert(0, 5)` (hash = identity): key 0's bucket is full
and already holds key 0. -/
def c9state : EHT :=
  { globalDepth := 0, bucketSize := 1, numBuckets := 1,
    buckets := [{ size := 1, depth := 0, items := [(0, 5)] }], dir := [0] }

/-- C9: `Insert` on an existing key whose bucket is full does not update
in place - it never returns.  In the reachable one-slot table holding
`(0, 5)`, key 0 is found with value 5 and its bucket is full; re-inserting
key 0 with value 6 fails for every recursion allowance, because `Insert`
checks `IsFull` before key presence and the split keeps the lone item
together, so the directory doubles forever. -/
theorem c9_insert_on_full_bucket_with_existing_key_diverges :
    EHT.ReachableT (fun x => x) 1 c9state ∧
    EHT.findT (fun x => x) c9state 0 = some 5 ∧
    (c9state.bucketAt (EHT.indexOf (fun x => x) c9state 0)).isFull = true ∧
    ∀ fuel : Nat, EHT.insertT (fun x => x) fuel c9state 0 6 = none := by
  refine ⟨⟨[TOp.ins 0 5 1], by decide⟩, rfl, rfl, ?_⟩
  intro fuel
  exact EHT.insertT_stuck fuel 0 c9state rfl rfl rfl rfl
